import Mathlib

/-!
# The reduce task of `mapreduce` (`common.go`, `common_reduce.go`)

A shallow embedding of `doReduce` and of the helpers in `common.go`, with the
statements of the reduce-side specification proved or refuted over it.

Conventions of the embedding.

* Go `string` is `String`; `strconv.Atoi` only ever inspects ASCII signs and
  digits, so reading characters instead of bytes changes nothing.
* Go `int` is the 64-bit machine integer; values are kept in `Int`/`Nat` and the
  places where Go arithmetic wraps are written with an explicit `% 2 ^ 64`.
* The file system is explicit state (`FS`); a file is described by what
  successive `Decode` calls of a `json.Decoder` on it return.
* `log.Fatal` ends the run: the `Run` record then has `fatal = true` and keeps
  the file system as it was at that moment.
* `sort.Sort` is passed to `doReduce` as a function.  Its contract is
  `SortContract`; `insertionSort` is the algorithm the Go library runs on
  short collections.
-/

namespace mapreduce

/-! ## `common.go` -/

/-- The type `KeyValue` of `common.go`. -/
structure KeyValue where
  Key : String
  Value : String
  deriving DecidableEq, Repr, Inhabited

/-- The type `KeyValues` of `common.go` (a slice of records). -/
abbrev KeyValues := List KeyValue

/-- The errors `strconv` reports: `ErrSyntax` and `ErrRange`. -/
inductive NumError where
  | ErrSyntax
  | ErrRange
  deriving DecidableEq, Repr

/-- The constant `strconv.IntSize` on a 64-bit platform. -/
def intSize : Nat := 64

/-- The largest `uint64`. -/
def maxUint64 : Nat := 2 ^ 64 - 1

/-- Conversion of an integer to `int64`, wrapping modulo `2 ^ 64`. -/
def toInt64 (x : Int) : Int := (x + 2 ^ 63) % 2 ^ 64 - 2 ^ 63

/-- The digit loop of `strconv.ParseUint(s, 10, bitSize)`: `n` is the `uint64`
accumulated so far and `maxVal = 1<<bitSize - 1`.  A byte that is not a decimal
digit is a syntax error with value `0`; an overflow of `n*10` or of `n+d` is a
range error with value `maxVal`. -/
def parseUintLoop (maxVal : Nat) : List Char → Nat → Nat × Option NumError
  | [], n => (n, none)
  | c :: cs, n =>
    if 48 ≤ c.toNat ∧ c.toNat ≤ 57 then
      let d := c.toNat - 48
      if n ≥ maxUint64 / 10 + 1 then
        (maxVal, some NumError.ErrRange)
      else
        let n10 := (n * 10) % 2 ^ 64
        let n1 := (n10 + d) % 2 ^ 64
        if n1 < n10 ∨ n1 > maxVal then
          (maxVal, some NumError.ErrRange)
        else
          parseUintLoop maxVal cs n1
    else
      (0, some NumError.ErrSyntax)

/-- The function `strconv.ParseUint(s, 10, bitSize)` on the characters of `s`. -/
def ParseUint (s : List Char) (bitSize : Nat) : Nat × Option NumError :=
  if s = [] then (0, some NumError.ErrSyntax)
  else parseUintLoop (2 ^ bitSize - 1) s 0

/-- The function `strconv.ParseInt(s, 10, bitSize)` on the characters of `s`:
an optional sign, then `ParseUint`; a syntax error gives `0`, a magnitude that
does not fit gives the extreme value of the sign together with `ErrRange`. -/
def ParseInt (s : List Char) (bitSize : Nat) : Int × Option NumError :=
  match s with
  | [] => (0, some NumError.ErrSyntax)
  | c :: cs =>
    let neg := decide (c = '-')
    let body := if c = '+' ∨ c = '-' then cs else c :: cs
    let (un, err) := ParseUint body bitSize
    if err = some NumError.ErrSyntax then (0, err)
    else
      let cutoff : Nat := 2 ^ (bitSize - 1)
      if neg = false ∧ un ≥ cutoff then
        (toInt64 ((cutoff : Int) - 1), some NumError.ErrRange)
      else if neg = true ∧ un > cutoff then
        (toInt64 (-(cutoff : Int)), some NumError.ErrRange)
      else
        let n := toInt64 (un : Int)
        (if neg then toInt64 (-n) else n, none)

/-- The function `strconv.Atoi`: `ParseInt(s, 10, 0)` converted to `int`, with
bit size `0` standing for `strconv.IntSize`. -/
def Atoi (s : String) : Int × Option NumError :=
  ParseInt s.data intSize

/-- The function `strconv.Itoa`: the decimal representation of a machine
integer, with a leading minus sign for a negative one. -/
def Itoa (i : Int) : String :=
  match i with
  | Int.ofNat n => Nat.repr n
  | Int.negSucc n => "-" ++ Nat.repr (n + 1)

/-- The function `reduceName` of `common.go`. -/
def reduceName (jobName : String) (mapTask : Int) (reduceTask : Int) : String :=
  "mrtmp." ++ jobName ++ "-" ++ Itoa mapTask ++ "-" ++ Itoa reduceTask

/-- The function `mergeName` of `common.go`. -/
def mergeName (jobName : String) (reduceTask : Int) : String :=
  "mrtmp." ++ jobName ++ "-res-" ++ Itoa reduceTask

/-- The method `KeyValues.Len`. -/
def Len (kv : KeyValues) : Nat := kv.length

/-- The body of `KeyValues.Less` on the two records it reads: both keys go
through `strconv.Atoi`, the errors are dropped, the integers are compared. -/
def lessKey (a b : KeyValue) : Bool :=
  let in_ := (Atoi a.Key).1
  let jn := (Atoi b.Key).1
  decide (in_ < jn)

/-- The method `KeyValues.Less(i, j)`; an index outside the slice panics in Go
and is excluded by the type here. -/
def Less (kv : KeyValues) (i j : Fin kv.length) : Bool :=
  lessKey (kv.get i) (kv.get j)

/-! ## `sort.Sort` -/

/-- The inner loop of the library's `insertionSort`: the element `x` at index
`j` is swapped with its left neighbour while `Less(j, j-1)` holds.  The sorted
prefix to the left of `x` is given last element first. -/
def insertLeft (x : KeyValue) : List KeyValue → List KeyValue
  | [] => [x]
  | y :: ys => if lessKey x y then y :: insertLeft x ys else x :: y :: ys

/-- The library's `insertionSort(data, 0, n)`, which is all that `sort.Sort`
runs on a short collection (at most twelve elements in the pattern-defeating
quicksort of the current library, at most six in the older quicksort): for
`i = 1 .. n-1` the element at `i` is moved left by `insertLeft`. -/
def insertionSort (kv : KeyValues) : KeyValues :=
  (kv.foldl (fun sortedRev x => insertLeft x sortedRev) []).reverse

/-- The contract of `sort.Sort(kvs)`: the collection is rearranged (a
permutation), and afterwards no element is `Less` than an earlier one. -/
structure SortContract (srt : KeyValues → KeyValues) : Prop where
  perm : ∀ kv : KeyValues, (srt kv).Perm kv
  sorted : ∀ (kv : KeyValues) (i j : Fin (srt kv).length), i < j → Less (srt kv) j i = false

/-! ## `common_reduce.go` -/

/-- What one call of `Decode` on a `json.Decoder` returns: a record, or an
error (a malformed or truncated fragment).  Running off the end of the stream
is the error `io.EOF`. -/
inductive Decoded where
  | record (kv : KeyValue)
  | failure
  deriving DecidableEq, Repr

/-- The file system seen by `doReduce`.  `content name` is `none` when
`os.Open(name)` fails, and otherwise what decoding the file yields;
`canCreate name` tells whether `os.Create(name)` succeeds; `encodeFails name i`
tells whether the `i`-th `Encode` on the created file reports an error. -/
structure FS where
  content : String → Option (List Decoded)
  canCreate : String → Bool
  encodeFails : String → Nat → Bool

/-- Step 1 of `doReduce`, the loop over `m`: every file `reduceName(jobName, m,
reduceTask)` is opened in turn and appended to `fileList`; the first failure
ends the loop with `log.Fatal`.  Returns the names opened, the opened files and
whether the loop ran to its end. -/
def openLoop (fs : FS) (jobName : String) (reduceTask : Int) :
    List Nat → List String → List (List Decoded) → List String × List (List Decoded) × Bool
  | [], opened, fileList => (opened, fileList, true)
  | m :: ms, opened, fileList =>
    let fileName := reduceName jobName (m : Int) reduceTask
    match fs.content fileName with
    | none => (opened, fileList, false)
    | some file => openLoop fs jobName reduceTask ms (opened ++ [fileName]) (fileList ++ [file])

/-- The inner loop of step 2: `Decode` is called until it returns an error;
every record decoded before that is appended to `kvs`. -/
def decodeLoop : List Decoded → KeyValues → KeyValues
  | Decoded.record kv :: rest, kvs => decodeLoop rest (kvs ++ [kv])
  | Decoded.failure :: _, kvs => kvs
  | [], kvs => kvs

/-- Step 2 of `doReduce`: the files of `fileList` are decoded one after the
other into one collection. -/
def readAll (fileList : List (List Decoded)) : KeyValues :=
  fileList.foldl (fun kvs file => decodeLoop file kvs) []

/-- The variables of the grouping loop (step 4), together with the list of
calls made to `reduceF` so far. -/
structure GroupState where
  preKey : String
  values : List String
  result : List KeyValue
  calls : List (String × List String)
  deriving DecidableEq, Repr

/-- The statement that closes a group, used inside the loop and after it:
when `values` is not empty, `reduceF(preKey, values)` is called and the record
is appended to `result`. -/
def flush (reduceF : String → List String → String) (st : GroupState) : GroupState :=
  if st.values.length > 0 then
    { st with
      result := st.result ++ [{ Key := st.preKey, Value := reduceF st.preKey st.values }]
      calls := st.calls ++ [(st.preKey, st.values)] }
  else st

/-- One iteration of the grouping loop of step 4. -/
def groupStep (reduceF : String → List String → String) (st : GroupState) (kv : KeyValue) :
    GroupState :=
  if kv.Key ≠ st.preKey then
    let st1 := flush reduceF st
    { st1 with values := [kv.Value], preKey := kv.Key }
  else
    { st with values := st.values ++ [kv.Value] }

/-- Step 4 of `doReduce`: the loop over the sorted collection and the final
flush, starting from `preKey = ""`, `values = nil`, `result = nil`. -/
def groupPass (reduceF : String → List String → String) (kvs : KeyValues) : GroupState :=
  flush reduceF
    (kvs.foldl (groupStep reduceF) { preKey := "", values := [], result := [], calls := [] })

/-- The loop of step 5: every record of `result` is encoded to the created
file; an `Encode` that fails is reported on standard error and the loop goes
on.  Returns what the file holds and the number of reports. -/
def encodeLoop (fails : Nat → Bool) : List KeyValue → Nat → List Decoded → Nat →
    List Decoded × Nat
  | [], _, written, reports => (written, reports)
  | kv :: rest, i, written, reports =>
    if fails i then encodeLoop fails rest (i + 1) written (reports + 1)
    else encodeLoop fails rest (i + 1) (written ++ [Decoded.record kv]) reports

/-- What an invocation of `doReduce` did. -/
structure Run where
  /-- Whether `log.Fatal` ended the invocation. -/
  fatal : Bool
  /-- The names of the intermediate files opened, in order. -/
  opened : List String
  /-- The merged collection at the end of step 2. -/
  kvs : KeyValues
  /-- The calls made to `reduceF`, in order, with their arguments. -/
  calls : List (String × List String)
  /-- The variable `result` at the end of step 4. -/
  result : List KeyValue
  /-- Whether `os.Create(outFile)` was reached and succeeded. -/
  created : Bool
  /-- The number of failure reports written to standard error. -/
  reports : Nat
  /-- The file system when the invocation ended. -/
  fs : FS

/-- The function `doReduce` of `common_reduce.go`; `sortSort` stands for
`sort.Sort`. -/
def doReduce (sortSort : KeyValues → KeyValues) (fs : FS)
    (jobName : String) (reduceTask : Int) (outFile : String) (nMap : Int)
    (reduceF : String → List String → String) : Run :=
  -- 1. Read intermediate file
  match openLoop fs jobName reduceTask (List.range nMap.toNat) [] [] with
  | (opened, _, false) =>
    { fatal := true, opened := opened, kvs := [], calls := [], result := [],
      created := false, reports := 0, fs := fs }
  | (opened, fileList, true) =>
    -- 2. Read key/value pairs
    let kvs := readAll fileList
    -- 3. sort
    let sorted := sortSort kvs
    -- 4. call reduce
    let st := groupPass reduceF sorted
    -- 5. record to file
    if fs.canCreate outFile then
      let (written, reports) := encodeLoop (fs.encodeFails outFile) st.result 0 [] 0
      { fatal := false, opened := opened, kvs := kvs, calls := st.calls, result := st.result,
        created := true, reports := reports,
        fs := { fs with content := fun name => if name = outFile then some written
                                               else fs.content name } }
    else
      { fatal := true, opened := opened, kvs := kvs, calls := st.calls, result := st.result,
        created := false, reports := 0, fs := fs }

/-! ## The maximal runs of a collection -/

/-- The maximal runs of consecutive records with equal `Key`, in order: each
run is given by its key and the values of its records in collection order. -/
def runs : KeyValues → List (String × List String)
  | [] => []
  | kv :: rest =>
    match runs rest with
    | [] => [(kv.Key, [kv.Value])]
    | (k, vs) :: gs =>
      if kv.Key = k then (k, kv.Value :: vs) :: gs
      else (kv.Key, [kv.Value]) :: (k, vs) :: gs

/-- The records a group stands for: one record per value, all with the key of
the group. -/
def expand (g : String × List String) : KeyValues :=
  g.2.map (fun v => { Key := g.1, Value := v })

/-- The Result Record of a group under `reduceF`. -/
def reduced (reduceF : String → List String → String) (g : String × List String) : KeyValue :=
  { Key := g.1, Value := reduceF g.1 g.2 }

/-- The groups the loop of step 4 still has to emit when the open group has
key `k` and values `vs` and the records `l` are still to be scanned. -/
def openRuns (k : String) (vs : List String) : KeyValues → List (String × List String)
  | [] => if vs.length > 0 then [(k, vs)] else []
  | kv :: rest =>
    if kv.Key ≠ k then
      (if vs.length > 0 then [(k, vs)] else []) ++ openRuns kv.Key [kv.Value] rest
    else openRuns k (vs ++ [kv.Value]) rest

/-! ## The numeric interpretation of a key -/

/-- Whether a character is a decimal digit. -/
def isDigit (c : Char) : Bool := decide (48 ≤ c.toNat ∧ c.toNat ≤ 57)

/-- The number written by the decimal digits `ds` after the digits of `n`. -/
def decimalFrom (n : Nat) (ds : List Char) : Nat :=
  ds.foldl (fun n c => n * 10 + (c.toNat - 48)) n

/-- The number written by the decimal digits `ds`. -/
def decimalValue (ds : List Char) : Nat := decimalFrom 0 ds

/-- A key split into its sign (`true` for a leading minus) and what follows
the sign. -/
def signOf (s : List Char) : Bool × List Char :=
  match s with
  | [] => (false, [])
  | c :: cs => if c = '-' then (true, cs) else if c = '+' then (false, cs) else (false, c :: cs)

/-- The largest machine integer. -/
def maxInt : Int := 2 ^ 63 - 1

/-- The smallest machine integer. -/
def minInt : Int := -(2 ^ 63)

/-- Whether a key parses as an integer: an optional sign followed by one or
more decimal digits whose value fits the machine integer. -/
def parses (k : String) : Bool :=
  let body := (signOf k.data).2
  let v : Int := if (signOf k.data).1 then -(decimalValue body : Int) else (decimalValue body : Int)
  decide (body ≠ [] ∧ body.all isDigit = true ∧ minInt ≤ v ∧ v ≤ maxInt)

/-- The numeric interpretation in the words of the specification: the base-10
value of a key that parses as an integer, and zero for every other key. -/
def claimedNum (k : String) : Int :=
  if parses k then
    (if (signOf k.data).1 then -(decimalValue (signOf k.data).2 : Int)
     else (decimalValue (signOf k.data).2 : Int))
  else 0

/-- The numeric interpretation of a key with sign `neg` and, after the sign,
`body`.  With `digits` the decimal digits `body` starts with: when already
`digits` exceeds 64 unsigned bits the value is the extreme machine integer of
the sign, whatever follows the digits; otherwise a body that is empty or has
something after its digits has the value zero; otherwise the value is that of
the digits with the sign, limited to the range of the machine integer. -/
def numOf (neg : Bool) (body : List Char) : Int :=
  let digits := body.takeWhile isDigit
  if decimalValue digits > maxUint64 then (if neg then minInt else maxInt)
  else if body = [] ∨ digits ≠ body then 0
  else if neg then max minInt (-(decimalValue digits : Int))
  else min maxInt (decimalValue digits : Int)

/-- The numeric interpretation `KeyValues.Less` really uses. -/
def num (k : String) : Int :=
  numOf (signOf k.data).1 (signOf k.data).2

/-! ## Decimal representations -/

/-- Whether the characters `t` are the decimal representation of the natural
number `n`: one or more decimal digits, of value `n`, without a leading zero
unless `t` is the single digit `0`. -/
def isDecimalNat (n : Nat) (t : List Char) : Bool :=
  decide (t ≠ []) && t.all isDigit && decide (decimalValue t = n)
    && decide (t.head? = some '0' → t = ['0'])

/-- Whether `s` is the decimal representation of the integer `i`: that of `i`
when `i` is not negative, and a minus sign followed by that of `-i` when it
is. -/
def isDecimal (i : Int) (s : String) : Bool :=
  if 0 ≤ i then isDecimalNat i.toNat s.data
  else
    match s.data with
    | c :: t => decide (c = '-') && isDecimalNat (-i).toNat t
    | [] => false

/-! ## Example inputs -/

/-- A file system holding exactly the listed files, where every file can be
created and every `Encode` succeeds. -/
def fsOf (files : List (String × List Decoded)) : FS :=
  { content := fun name => files.lookup name
    canCreate := fun _ => true
    encodeFails := fun _ _ => false }

/-- A reduce function that joins its values with a comma. -/
def joinComma (_key : String) (values : List String) : String :=
  String.intercalate "," values

/-- One source file whose keys are letters: `a`, `b`, `a`. -/
def fsLetters : FS :=
  fsOf [("mrtmp.job-0-0",
    [Decoded.record ⟨"a", "1"⟩, Decoded.record ⟨"b", "2"⟩, Decoded.record ⟨"a", "3"⟩])]

/-- One source file whose keys all parse as integers: `1`, `01`, `1`. -/
def fsLeadingZero : FS :=
  fsOf [("mrtmp.job-0-0",
    [Decoded.record ⟨"1", "a"⟩, Decoded.record ⟨"01", "b"⟩, Decoded.record ⟨"1", "c"⟩])]

/-- The three source files of partition 0 of the specification's example. -/
def fsThree : FS :=
  fsOf [("mrtmp.job-0-0", [Decoded.record ⟨"1", "a"⟩, Decoded.record ⟨"2", "x"⟩]),
        ("mrtmp.job-1-0", [Decoded.record ⟨"1", "b"⟩]),
        ("mrtmp.job-2-0", [Decoded.record ⟨"2", "y"⟩, Decoded.record ⟨"1", "c"⟩])]

/-- A file system without files in which no file can be created. -/
def fsNoCreate : FS :=
  { content := fun _ => none
    canCreate := fun _ => false
    encodeFails := fun _ _ => false }

/-- Two source files, the first with a malformed fragment after its first
record. -/
def fsTruncated : FS :=
  fsOf [("mrtmp.job-0-0",
          [Decoded.record ⟨"1", "a"⟩, Decoded.failure, Decoded.record ⟨"2", "x"⟩]),
        ("mrtmp.job-1-0", [Decoded.record ⟨"3", "b"⟩])]

/-- The two source files of `fsTruncated` on a file system where no file can
be created. -/
def fsTruncatedNoCreate : FS :=
  { fsTruncated with canCreate := fun _ => false }

/-- The file system a first invocation of `doReduce` on `fsThree` leaves, at a
moment when every `Encode` on a created file fails. -/
def fsThreeRerunFailing : FS :=
  { (doReduce insertionSort fsThree "job" 0 "out" 3 joinComma).fs with
    encodeFails := fun _ _ => true }

/-! ## Lemmas on the grouping loop -/

theorem flush_calls (reduceF : String → List String → String) (st : GroupState) :
    (flush reduceF st).calls = st.calls ++ (if st.values.length > 0 then [(st.preKey, st.values)] else []) := by
  unfold flush
  split <;> simp

theorem flush_result (reduceF : String → List String → String) (st : GroupState)
    (h : st.result = st.calls.map (reduced reduceF)) :
    (flush reduceF st).result = (flush reduceF st).calls.map (reduced reduceF) := by
  unfold flush
  split
  · simp [h, reduced]
  · exact h

theorem foldl_groupStep_calls (reduceF : String → List String → String) (l : KeyValues) :
    ∀ st : GroupState,
      (flush reduceF (l.foldl (groupStep reduceF) st)).calls
        = st.calls ++ openRuns st.preKey st.values l := by
  induction l with
  | nil => intro st; simp [flush_calls, openRuns]
  | cons kv rest ih =>
    intro st
    rw [List.foldl_cons, ih]
    by_cases hk : kv.Key = st.preKey
    · simp [groupStep, openRuns, hk]
    · simp [groupStep, openRuns, hk, flush_calls]

theorem foldl_groupStep_result (reduceF : String → List String → String) (l : KeyValues) :
    ∀ st : GroupState, st.result = st.calls.map (reduced reduceF) →
      (l.foldl (groupStep reduceF) st).result
        = (l.foldl (groupStep reduceF) st).calls.map (reduced reduceF) := by
  induction l with
  | nil => intro st h; exact h
  | cons kv rest ih =>
    intro st h
    rw [List.foldl_cons]
    apply ih
    unfold groupStep
    split
    · exact flush_result reduceF st h
    · exact h

theorem groupPass_result_calls (reduceF : String → List String → String) (kvs : KeyValues) :
    (groupPass reduceF kvs).result = (groupPass reduceF kvs).calls.map (reduced reduceF) := by
  unfold groupPass
  exact flush_result reduceF _ (foldl_groupStep_result reduceF kvs _ rfl)

/-! ## Lemmas on `runs` -/

theorem runs_cons (kv : KeyValue) (rest : KeyValues) :
    runs (kv :: rest) =
      match runs rest with
      | [] => [(kv.Key, [kv.Value])]
      | (k, vs) :: gs =>
        if kv.Key = k then (k, kv.Value :: vs) :: gs
        else (kv.Key, [kv.Value]) :: (k, vs) :: gs := rfl

theorem runs_cons_head (kv : KeyValue) (rest : KeyValues) :
    ∃ vs gs, runs (kv :: rest) = (kv.Key, vs) :: gs := by
  cases h : runs rest with
  | nil => exact ⟨[kv.Value], [], by simp [runs, h]⟩
  | cons g gs =>
    obtain ⟨k, vs⟩ := g
    by_cases hk : kv.Key = k
    · exact ⟨kv.Value :: vs, gs, by simp [runs, h, hk]⟩
    · exact ⟨[kv.Value], (k, vs) :: gs, by simp [runs, h, hk]⟩

theorem runs_group_append (k : String) (l : KeyValues)
    (hl : ∀ g ∈ (runs l).head?, g.1 ≠ k) :
    ∀ (v : String) (vs : List String),
      runs (expand (k, v :: vs) ++ l) = (k, v :: vs) :: runs l := by
  intro v vs
  induction vs generalizing v with
  | nil =>
    cases h : runs l with
    | nil => simp [expand, runs, h]
    | cons g gs =>
      obtain ⟨k2, vs2⟩ := g
      have hne : k2 ≠ k := by
        have := hl (k2, vs2) (by simp [h])
        exact this
      have hne2 : ¬ k = k2 := fun e => hne e.symm
      simp [expand, runs, h, hne2]
  | cons w ws ih =>
    have e : expand (k, v :: w :: ws) ++ l
        = { Key := k, Value := v } :: (expand (k, w :: ws) ++ l) := by
      simp [expand]
    rw [e, runs_cons, ih w]
    simp

theorem openRuns_eq_runs (l : KeyValues) :
    ∀ (k : String) (v : String) (vs : List String),
      openRuns k (v :: vs) l = runs (expand (k, v :: vs) ++ l) := by
  induction l with
  | nil =>
    intro k v vs
    have := runs_group_append k [] (by simp [runs]) v vs
    simp only [List.append_nil] at this ⊢
    rw [this]
    simp [openRuns, runs]
  | cons kv rest ih =>
    intro k v vs
    by_cases hk : kv.Key = k
    · have e : expand (k, v :: vs) ++ kv :: rest = expand (k, v :: (vs ++ [kv.Value])) ++ rest := by
        obtain ⟨kk, vv⟩ := kv
        simp only at hk
        subst hk
        simp [expand]
      rw [e, ← ih]
      simp [openRuns, hk]
    · have hhead : ∀ g ∈ (runs (kv :: rest)).head?, g.1 ≠ k := by
        obtain ⟨vs2, gs, h2⟩ := runs_cons_head kv rest
        intro g hg
        rw [h2] at hg
        simp at hg
        subst hg
        exact hk
      rw [runs_group_append k (kv :: rest) hhead v vs]
      have e2 : runs (kv :: rest) = runs (expand (kv.Key, [kv.Value]) ++ rest) := by
        simp [expand]
      rw [e2, ← ih]
      simp [openRuns, hk]

theorem openRuns_nil_eq_runs (k : String) (l : KeyValues) : openRuns k [] l = runs l := by
  cases l with
  | nil => simp [openRuns, runs]
  | cons kv rest =>
    have e2 : runs (kv :: rest) = runs (expand (kv.Key, [kv.Value]) ++ rest) := by
      simp [expand]
    by_cases hk : kv.Key = k
    · rw [e2, ← openRuns_eq_runs]
      simp [openRuns, hk]
    · rw [e2, ← openRuns_eq_runs]
      simp [openRuns, hk]

theorem groupPass_calls (reduceF : String → List String → String) (kvs : KeyValues) :
    (groupPass reduceF kvs).calls = runs kvs := by
  unfold groupPass
  rw [foldl_groupStep_calls]
  simp [openRuns_nil_eq_runs]

theorem runs_expand (kvs : KeyValues) : ((runs kvs).map expand).flatten = kvs := by
  induction kvs with
  | nil => simp [runs]
  | cons kv rest ih =>
    cases h : runs rest with
    | nil =>
      rw [h] at ih
      simp at ih
      simp [runs, h, expand, ← ih]
    | cons g gs =>
      obtain ⟨k, vs⟩ := g
      rw [h] at ih
      by_cases hk : kv.Key = k
      · obtain ⟨kk, vv⟩ := kv
        simp only at hk
        subst hk
        simp only [runs, h, if_true]
        simp only [List.map_cons, List.flatten_cons] at ih ⊢
        rw [← ih]
        simp [expand]
      · simp only [runs, h, hk, if_false]
        simp only [List.map_cons, List.flatten_cons] at ih ⊢
        rw [← ih]
        simp [expand]

theorem runs_nonempty (kvs : KeyValues) : ∀ g ∈ runs kvs, g.2 ≠ [] := by
  induction kvs with
  | nil => simp [runs]
  | cons kv rest ih =>
    cases h : runs rest with
    | nil => simp [runs, h]
    | cons g gs =>
      obtain ⟨k, vs⟩ := g
      rw [h] at ih
      by_cases hk : kv.Key = k
      · simp only [runs, h, hk, if_true]
        intro g hg
        rcases List.mem_cons.mp hg with e | e
        · subst e; simp
        · exact ih g (List.mem_cons_of_mem _ e)
      · simp only [runs, h, hk, if_false]
        intro g hg
        rcases List.mem_cons.mp hg with e | e
        · subst e; simp
        · exact ih g e

theorem runs_chain (kvs : KeyValues) : (runs kvs).Chain' (fun g h => g.1 ≠ h.1) := by
  induction kvs with
  | nil => simp [runs]
  | cons kv rest ih =>
    cases h : runs rest with
    | nil => simp [runs, h]
    | cons g gs =>
      obtain ⟨k, vs⟩ := g
      rw [h] at ih
      by_cases hk : kv.Key = k
      · simp only [runs, h, hk, if_true]
        cases gs with
        | nil => simp
        | cons g2 gs2 =>
          rw [List.chain'_cons] at ih ⊢
          exact ih
      · simp only [runs, h, hk, if_false]
        rw [List.chain'_cons]
        exact ⟨hk, ih⟩

theorem runs_unique (gs : List (String × List String)) :
    ∀ kvs : KeyValues, (gs.map expand).flatten = kvs → (∀ g ∈ gs, g.2 ≠ []) →
      gs.Chain' (fun g h => g.1 ≠ h.1) → runs kvs = gs := by
  induction gs with
  | nil => intro kvs hc _ _; simp at hc; subst hc; rfl
  | cons g gs ih =>
    intro kvs hc hne hch
    obtain ⟨k, vs⟩ := g
    have ih2 := ih _ rfl (fun g hg => hne g (List.mem_cons_of_mem _ hg)) hch.tail
    cases vs with
    | nil => exact absurd rfl (hne (k, []) (List.mem_cons_self _ _))
    | cons v vs =>
      simp only [List.map_cons, List.flatten_cons] at hc
      rw [← hc, runs_group_append k _ _ v vs, ih2]
      rw [ih2]
      intro g hg
      cases gs with
      | nil => simp at hg
      | cons g2 gs2 =>
        simp at hg
        subst hg
        exact fun e => (List.chain'_cons.mp hch).1 e.symm

theorem runs_keys_sublist (kvs : KeyValues) :
    ((runs kvs).map Prod.fst).Sublist (kvs.map KeyValue.Key) := by
  induction kvs with
  | nil => simp [runs]
  | cons kv rest ih =>
    rw [runs_cons]
    cases h : runs rest with
    | nil => simp
    | cons g gs =>
      obtain ⟨k, vs⟩ := g
      rw [h] at ih
      by_cases hk : kv.Key = k
      · simp only [hk, if_true, List.map_cons]
        exact List.Sublist.cons _ ih
      · simp only [hk, if_false, List.map_cons]
        exact List.Sublist.cons₂ _ ih

theorem runs_keys_mem (kvs : KeyValues) (k : String) :
    k ∈ (runs kvs).map Prod.fst ↔ k ∈ kvs.map KeyValue.Key := by
  constructor
  · exact fun h => (runs_keys_sublist kvs).subset h
  · induction kvs with
    | nil => simp
    | cons kv rest ih =>
      intro hk
      rw [runs_cons]
      cases h : runs rest with
      | nil =>
        have hnil : rest = [] := by
          have := runs_expand rest
          rw [h] at this
          simpa using this.symm
        subst hnil
        simpa using hk
      | cons g gs =>
        obtain ⟨k2, vs⟩ := g
        rw [h] at ih
        simp only [List.map_cons, List.mem_cons] at hk ih
        by_cases hkk : kv.Key = k2
        · simp only [hkk, if_true, List.map_cons, List.mem_cons]
          rcases hk with e | e
          · exact Or.inl (e.trans hkk)
          · exact ih e
        · simp only [hkk, if_false, List.map_cons, List.mem_cons]
          rcases hk with e | e
          · exact Or.inl e
          · exact Or.inr (ih e)

/-! ## Lemmas on sorting -/

theorem lessKey_iff (a b : KeyValue) : lessKey a b = true ↔ (Atoi a.Key).1 < (Atoi b.Key).1 := by
  simp [lessKey]

theorem lessKey_false_iff (a b : KeyValue) :
    lessKey a b = false ↔ (Atoi b.Key).1 ≤ (Atoi a.Key).1 := by
  simp [lessKey]

theorem insertLeft_perm (x : KeyValue) (l : List KeyValue) : (insertLeft x l).Perm (x :: l) := by
  induction l with
  | nil => simp [insertLeft]
  | cons y ys ih =>
    unfold insertLeft
    split
    · exact (List.Perm.cons y ih).trans (List.Perm.swap x y ys)
    · exact List.Perm.refl _

theorem insertLeft_sorted (x : KeyValue) (l : List KeyValue)
    (h : l.Pairwise (fun a b => lessKey a b = false)) :
    (insertLeft x l).Pairwise (fun a b => lessKey a b = false) := by
  induction l with
  | nil => simp [insertLeft]
  | cons y ys ih =>
    rw [List.pairwise_cons] at h
    unfold insertLeft
    split
    · rename_i hxy
      rw [List.pairwise_cons]
      refine ⟨?_, ih h.2⟩
      intro z hz
      rcases List.mem_cons.mp ((insertLeft_perm x ys).subset hz) with e | e
      · subst e
        rw [lessKey_iff] at hxy
        rw [lessKey_false_iff]
        exact le_of_lt hxy
      · exact h.1 z e
    · rename_i hxy
      rw [List.pairwise_cons]
      refine ⟨?_, List.pairwise_cons.mpr h⟩
      have hxy2 : lessKey x y = false := by simpa using hxy
      intro z hz
      rcases List.mem_cons.mp hz with e | e
      · subst e; exact hxy2
      · have hyz := h.1 z e
        rw [lessKey_false_iff] at hxy2 hyz ⊢
        exact le_trans hyz hxy2

theorem foldl_insertLeft (l : List KeyValue) :
    ∀ acc : List KeyValue, acc.Pairwise (fun a b => lessKey a b = false) →
      (l.foldl (fun sortedRev x => insertLeft x sortedRev) acc).Pairwise
          (fun a b => lessKey a b = false)
      ∧ (l.foldl (fun sortedRev x => insertLeft x sortedRev) acc).Perm (l.reverse ++ acc) := by
  induction l with
  | nil => intro acc h; exact ⟨h, by simp⟩
  | cons x xs ih =>
    intro acc h
    rw [List.foldl_cons]
    obtain ⟨h1, h2⟩ := ih (insertLeft x acc) (insertLeft_sorted x acc h)
    refine ⟨h1, h2.trans ?_⟩
    rw [List.reverse_cons, List.append_assoc]
    exact List.Perm.append_left _ (insertLeft_perm x acc)

theorem pairwise_of_sorted (kv : KeyValues)
    (h : ∀ i j : Fin kv.length, i < j → Less kv j i = false) :
    kv.Pairwise (fun a b => lessKey b a = false) :=
  List.pairwise_iff_get.mpr (fun i j hij => h i j hij)

theorem sorted_of_pairwise (kv : KeyValues) (h : kv.Pairwise (fun a b => lessKey b a = false)) :
    ∀ i j : Fin kv.length, i < j → Less kv j i = false :=
  fun i j hij => List.pairwise_iff_get.mp h i j hij

theorem insertionSort_contract : SortContract insertionSort := by
  constructor
  · intro kv
    unfold insertionSort
    have := (foldl_insertLeft kv [] List.Pairwise.nil).2
    simp only [List.append_nil] at this
    exact (List.reverse_perm _).trans (this.trans (List.reverse_perm _))
  · intro kv
    apply sorted_of_pairwise
    unfold insertionSort
    rw [List.pairwise_reverse]
    exact (foldl_insertLeft kv [] List.Pairwise.nil).1

/-! ## Lemmas on the steps of `doReduce` -/

theorem openLoop_ok (fs : FS) (jobName : String) (reduceTask : Int) (ms : List Nat) :
    ∀ (opened : List String) (fileList files : List (List Decoded)),
      ms.map (fun m : Nat => fs.content (reduceName jobName (m : Int) reduceTask)) = files.map some →
      openLoop fs jobName reduceTask ms opened fileList
        = (opened ++ ms.map (fun m : Nat => reduceName jobName (m : Int) reduceTask),
           fileList ++ files, true) := by
  induction ms with
  | nil =>
    intro opened fileList files h
    cases files with
    | nil => simp [openLoop]
    | cons f fs2 => simp at h
  | cons m ms ih =>
    intro opened fileList files h
    cases files with
    | nil => simp at h
    | cons f fs2 =>
      simp only [List.map_cons, List.cons.injEq] at h
      simp only [openLoop, h.1]
      rw [ih _ _ fs2 h.2]
      simp

theorem openLoop_fail (fs : FS) (jobName : String) (reduceTask : Int) (ms : List Nat) :
    ∀ (opened : List String) (fileList : List (List Decoded)),
      (∃ m ∈ ms, fs.content (reduceName jobName (m : Int) reduceTask) = none) →
      (openLoop fs jobName reduceTask ms opened fileList).2.2 = false := by
  induction ms with
  | nil => intro _ _ h; simp at h
  | cons m ms ih =>
    intro opened fileList h
    cases hc : fs.content (reduceName jobName (m : Int) reduceTask) with
    | none => simp [openLoop, hc]
    | some f =>
      simp only [openLoop, hc]
      apply ih
      obtain ⟨m2, hm2, hn⟩ := h
      rcases List.mem_cons.mp hm2 with e | e
      · subst e; rw [hc] at hn; cases hn
      · exact ⟨m2, e, hn⟩

theorem decodeLoop_records (recs : KeyValues) (tail : List Decoded)
    (ht : tail = [] ∨ ∃ junk, tail = Decoded.failure :: junk) :
    ∀ kvs : KeyValues, decodeLoop (recs.map Decoded.record ++ tail) kvs = kvs ++ recs := by
  induction recs with
  | nil =>
    intro kvs
    rcases ht with e | ⟨junk, e⟩ <;> subst e <;> simp [decodeLoop]
  | cons kv rest ih =>
    intro kvs
    show decodeLoop (rest.map Decoded.record ++ tail) (kvs ++ [kv]) = kvs ++ kv :: rest
    rw [ih]
    simp

theorem foldl_decodeLoop (parts : List (KeyValues × List Decoded))
    (ht : ∀ p ∈ parts, p.2 = [] ∨ ∃ junk, p.2 = Decoded.failure :: junk) :
    ∀ kvs : KeyValues,
      (parts.map (fun p => p.1.map Decoded.record ++ p.2)).foldl
          (fun kvs file => decodeLoop file kvs) kvs
        = kvs ++ (parts.map Prod.fst).flatten := by
  induction parts with
  | nil => intro kvs; simp
  | cons p ps ih =>
    intro kvs
    simp only [List.map_cons, List.foldl_cons, List.flatten_cons]
    rw [decodeLoop_records p.1 p.2 (ht p (List.mem_cons_self _ _)),
      ih (fun q hq => ht q (List.mem_cons_of_mem _ hq))]
    simp

theorem encodeLoop_all_written (fails : Nat → Bool) (hf : ∀ i, fails i = false)
    (result : List KeyValue) :
    ∀ (i : Nat) (written : List Decoded) (reports : Nat),
      encodeLoop fails result i written reports
        = (written ++ result.map Decoded.record, reports) := by
  induction result with
  | nil => intro i w r; simp [encodeLoop]
  | cons kv rest ih =>
    intro i w r
    simp [encodeLoop, hf, ih]

theorem doReduce_open_fail (sortSort : KeyValues → KeyValues) (fs : FS)
    (jobName : String) (reduceTask : Int) (outFile : String) (nMap : Int)
    (reduceF : String → List String → String)
    (h : (openLoop fs jobName reduceTask (List.range nMap.toNat) [] []).2.2 = false) :
    doReduce sortSort fs jobName reduceTask outFile nMap reduceF
      = { fatal := true,
          opened := (openLoop fs jobName reduceTask (List.range nMap.toNat) [] []).1,
          kvs := [], calls := [], result := [], created := false, reports := 0, fs := fs } := by
  unfold doReduce
  split
  · rename_i opened fl heq
    rw [heq]
  · rename_i opened fl heq
    rw [heq] at h
    cases h

theorem doReduce_open_ok (sortSort : KeyValues → KeyValues) (fs : FS)
    (jobName : String) (reduceTask : Int) (outFile : String) (nMap : Int)
    (reduceF : String → List String → String) (opened : List String)
    (fileList : List (List Decoded))
    (h : openLoop fs jobName reduceTask (List.range nMap.toNat) [] [] = (opened, fileList, true)) :
    doReduce sortSort fs jobName reduceTask outFile nMap reduceF
      = if fs.canCreate outFile then
          { fatal := false, opened := opened, kvs := readAll fileList,
            calls := (groupPass reduceF (sortSort (readAll fileList))).calls,
            result := (groupPass reduceF (sortSort (readAll fileList))).result,
            created := true,
            reports := (encodeLoop (fs.encodeFails outFile) (groupPass reduceF (sortSort (readAll fileList))).result 0 [] 0).2,
            fs := { fs with content := fun name => if name = outFile then some (encodeLoop (fs.encodeFails outFile) (groupPass reduceF (sortSort (readAll fileList))).result 0 [] 0).1 else fs.content name } }
        else
          { fatal := true, opened := opened, kvs := readAll fileList,
            calls := (groupPass reduceF (sortSort (readAll fileList))).calls,
            result := (groupPass reduceF (sortSort (readAll fileList))).result,
            created := false, reports := 0, fs := fs } := by
  unfold doReduce
  rw [h]

theorem doReduce_result_cases (sortSort : KeyValues → KeyValues) (fs : FS)
    (jobName : String) (reduceTask : Int) (outFile : String) (nMap : Int)
    (reduceF : String → List String → String) :
    ((doReduce sortSort fs jobName reduceTask outFile nMap reduceF).kvs = []
      ∧ (doReduce sortSort fs jobName reduceTask outFile nMap reduceF).result = []
      ∧ (doReduce sortSort fs jobName reduceTask outFile nMap reduceF).calls = [])
    ∨ ((doReduce sortSort fs jobName reduceTask outFile nMap reduceF).result
          = (runs (sortSort (doReduce sortSort fs jobName reduceTask outFile nMap reduceF).kvs)).map
              (reduced reduceF)
      ∧ (doReduce sortSort fs jobName reduceTask outFile nMap reduceF).calls
          = runs (sortSort (doReduce sortSort fs jobName reduceTask outFile nMap reduceF).kvs)) := by
  rcases hol : openLoop fs jobName reduceTask (List.range nMap.toNat) [] [] with ⟨opened, fl, b⟩
  cases b with
  | false =>
    left
    rw [doReduce_open_fail sortSort fs jobName reduceTask outFile nMap reduceF (by rw [hol])]
    exact ⟨rfl, rfl, rfl⟩
  | true =>
    right
    rw [doReduce_open_ok sortSort fs jobName reduceTask outFile nMap reduceF opened fl hol]
    split <;> exact ⟨by simp only [groupPass_result_calls, groupPass_calls], by simp only [groupPass_calls]⟩

/-! ## The grouping pass -/

/-- C1: for every record collection handed to the grouping pass and every
`reduceF`, the Result sequence has exactly one record per maximal run of
consecutive records with equal `Key`, in run order, and the record of a run with
key `k` and values `v1..vn` is `{Key: k, Value: reduceF(k, [v1..vn])}`; `reduceF`
is called exactly on these runs.  The runs are the decomposition of the
collection into non-empty groups of equal key whose neighbours differ in key. -/
theorem groupPass_one_record_per_run (reduceF : String → List String → String)
    (kvs : KeyValues) :
    (groupPass reduceF kvs).result = (runs kvs).map (reduced reduceF)
    ∧ (groupPass reduceF kvs).calls = runs kvs
    ∧ ((runs kvs).map expand).flatten = kvs
    ∧ (∀ g ∈ runs kvs, g.2 ≠ [])
    ∧ (runs kvs).Chain' (fun g h => g.1 ≠ h.1) := by
  refine ⟨?_, groupPass_calls reduceF kvs, runs_expand kvs, runs_nonempty kvs, runs_chain kvs⟩
  rw [groupPass_result_calls, groupPass_calls]

/-! ## Keys of the Result sequence -/

/-- C2 (the code at the failing input): one source file with the keys `a`, `b`,
`a`.  All three keys have the numeric value zero, the sort leaves them where
they are, and the Result sequence has two records with key `a`. -/
theorem doReduce_letters_duplicate_key (reduceF : String → List String → String) :
    (doReduce insertionSort fsLetters "job" 0 "out" 1 reduceF).result
      = [⟨"a", reduceF "a" ["1"]⟩, ⟨"b", reduceF "b" ["2"]⟩, ⟨"a", reduceF "a" ["3"]⟩]
    ∧ (doReduce insertionSort fsLetters "job" 0 "out" 1 reduceF).calls
      = [("a", ["1"]), ("b", ["2"]), ("a", ["3"])]
    ∧ ¬ ((doReduce insertionSort fsLetters "job" 0 "out" 1 reduceF).result.map
          KeyValue.Key).Nodup := by
  refine ⟨rfl, rfl, ?_⟩
  have e : (doReduce insertionSort fsLetters "job" 0 "out" 1 reduceF).result.map KeyValue.Key
      = ["a", "b", "a"] := rfl
  rw [e]
  decide

/-- C3: the keys of the Result Records are exactly the keys of the decoded
input records. -/
theorem doReduce_result_keys (sortSort : KeyValues → KeyValues) (hs : SortContract sortSort)
    (fs : FS) (jobName : String) (reduceTask : Int) (outFile : String) (nMap : Int)
    (reduceF : String → List String → String) (k : String) :
    (∃ kv ∈ (doReduce sortSort fs jobName reduceTask outFile nMap reduceF).kvs, kv.Key = k)
      ↔ (∃ r ∈ (doReduce sortSort fs jobName reduceTask outFile nMap reduceF).result,
          r.Key = k) := by
  rcases doReduce_result_cases sortSort fs jobName reduceTask outFile nMap reduceF with
    ⟨h1, h2, _⟩ | ⟨h1, _⟩
  · rw [h1, h2]
  · rw [h1]
    have hk := runs_keys_mem
      (sortSort (doReduce sortSort fs jobName reduceTask outFile nMap reduceF).kvs) k
    have hp := (hs.perm (doReduce sortSort fs jobName reduceTask outFile nMap reduceF).kvs).map
      KeyValue.Key
    rw [hp.mem_iff] at hk
    simp only [List.mem_map] at hk
    constructor
    · rintro ⟨kv, hkv, e⟩
      obtain ⟨g, hg, eg⟩ := hk.mpr ⟨kv, hkv, e⟩
      exact ⟨reduced reduceF g, List.mem_map.mpr ⟨g, hg, rfl⟩, eg⟩
    · rintro ⟨r, hr, er⟩
      obtain ⟨g, hg, e⟩ := List.mem_map.mp hr
      subst e
      exact hk.mp ⟨g, hg, er⟩

theorem doReduce_result_keys_witness :
    SortContract insertionSort
    ∧ ((∃ kv ∈ (doReduce insertionSort fsLetters "job" 0 "out" 1 joinComma).kvs, kv.Key = "b")
      ↔ (∃ r ∈ (doReduce insertionSort fsLetters "job" 0 "out" 1 joinComma).result,
          r.Key = "b")) :=
  ⟨insertionSort_contract,
    doReduce_result_keys insertionSort insertionSort_contract fsLetters "job" 0 "out" 1
      joinComma "b"⟩

/-- C4 (the code at the failing input): one source file with the keys `1`,
`01`, `1`.  Every key parses as a base-10 integer, all three have the value
one, the sort leaves them where they are, and the records with key `1` end up
in two groups. -/
theorem doReduce_leading_zero_split (reduceF : String → List String → String) :
    (Atoi "1" = (1, none) ∧ Atoi "01" = (1, none))
    ∧ (doReduce insertionSort fsLeadingZero "job" 0 "out" 1 reduceF).result
      = [⟨"1", reduceF "1" ["a"]⟩, ⟨"01", reduceF "01" ["b"]⟩, ⟨"1", reduceF "1" ["c"]⟩]
    ∧ (doReduce insertionSort fsLeadingZero "job" 0 "out" 1 reduceF).calls
      = [("1", ["a"]), ("01", ["b"]), ("1", ["c"])] := by
  exact ⟨⟨by decide, by decide⟩, rfl, rfl⟩

/-- C5: the Result sequence is ordered by the order used for sorting: no Result
Record is `Less` than a Result Record before it. -/
theorem doReduce_result_sorted (sortSort : KeyValues → KeyValues) (hs : SortContract sortSort)
    (fs : FS) (jobName : String) (reduceTask : Int) (outFile : String) (nMap : Int)
    (reduceF : String → List String → String)
    (i j : Fin (doReduce sortSort fs jobName reduceTask outFile nMap reduceF).result.length)
    (hij : i < j) :
    Less (doReduce sortSort fs jobName reduceTask outFile nMap reduceF).result j i = false := by
  apply sorted_of_pairwise _ _ i j hij
  rcases doReduce_result_cases sortSort fs jobName reduceTask outFile nMap reduceF with
    ⟨_, h2, _⟩ | ⟨h1, _⟩
  · rw [h2]; exact List.Pairwise.nil
  · rw [h1]
    have hsorted := pairwise_of_sorted _
      (hs.sorted (doReduce sortSort fs jobName reduceTask outFile nMap reduceF).kvs)
    have hkeys : ((sortSort (doReduce sortSort fs jobName reduceTask outFile nMap reduceF).kvs).map
        KeyValue.Key).Pairwise (fun a b => (Atoi a).1 ≤ (Atoi b).1) := by
      rw [List.pairwise_map]
      exact hsorted.imp (fun h => (lessKey_false_iff _ _).mp h)
    have hsub := hkeys.sublist (runs_keys_sublist _)
    rw [List.pairwise_map] at hsub
    rw [List.pairwise_map]
    exact hsub.imp (fun h => (lessKey_false_iff _ _).mpr h)

theorem doReduce_result_sorted_witness :
    SortContract insertionSort
    ∧ (⟨0, by decide⟩ : Fin (doReduce insertionSort fsThree "job" 0 "out" 3 joinComma).result.length)
        < ⟨1, by decide⟩
    ∧ Less (doReduce insertionSort fsThree "job" 0 "out" 3 joinComma).result
        ⟨1, by decide⟩ ⟨0, by decide⟩ = false :=
  ⟨insertionSort_contract, by decide,
    doReduce_result_sorted insertionSort insertionSort_contract fsThree "job" 0 "out" 3
      joinComma ⟨0, by decide⟩ ⟨1, by decide⟩ (by decide)⟩

/-! ## `strconv.Atoi` and the numeric interpretation -/

theorem two_pow_64 : (2 : Nat) ^ 64 = 18446744073709551616 := by norm_num

theorem decimalFrom_ge (ds : List Char) : ∀ n : Nat, n ≤ decimalFrom n ds := by
  induction ds with
  | nil => intro n; exact le_refl n
  | cons c cs ih =>
    intro n
    have h := ih (n * 10 + (c.toNat - 48))
    have e : decimalFrom n (c :: cs) = decimalFrom (n * 10 + (c.toNat - 48)) cs := rfl
    rw [e]
    omega

theorem parseUintLoop_spec (cs : List Char) :
    ∀ n : Nat, n ≤ maxUint64 →
      parseUintLoop (2 ^ 64 - 1) cs n =
        if maxUint64 < decimalFrom n (cs.takeWhile isDigit) then
          (2 ^ 64 - 1, some NumError.ErrRange)
        else if cs.takeWhile isDigit ≠ cs then (0, some NumError.ErrSyntax)
        else (decimalFrom n (cs.takeWhile isDigit), none) := by
  induction cs with
  | nil =>
    intro n hn
    have : ¬ maxUint64 < n := by omega
    simp [parseUintLoop, decimalFrom, this]
  | cons c cs ih =>
    intro n hn
    by_cases hd : 48 ≤ c.toNat ∧ c.toNat ≤ 57
    · have hdig : isDigit c = true := by simp [isDigit, hd]
      have htw : (c :: cs).takeWhile isDigit = c :: cs.takeWhile isDigit := by
        simp [List.takeWhile, hdig]
      have hstep : decimalFrom n (c :: cs.takeWhile isDigit)
          = decimalFrom (n * 10 + (c.toNat - 48)) (cs.takeWhile isDigit) := rfl
      have hge := decimalFrom_ge (cs.takeWhile isDigit) (n * 10 + (c.toNat - 48))
      rw [htw, hstep]
      unfold parseUintLoop
      simp only [hd, and_self, if_true]
      unfold maxUint64 at hn ⊢
      rw [two_pow_64] at hn ⊢
      by_cases hcut : n ≥ (18446744073709551616 - 1) / 10 + 1
      · have hbig : 18446744073709551616 - 1
            < decimalFrom (n * 10 + (c.toNat - 48)) (cs.takeWhile isDigit) := by omega
        simp only [hcut, if_true, hbig]
      · simp only [hcut, if_false]
        by_cases hov : n * 10 + (c.toNat - 48) ≥ 18446744073709551616
        · have hbig : 18446744073709551616 - 1
              < decimalFrom (n * 10 + (c.toNat - 48)) (cs.takeWhile isDigit) := by omega
          have hwrap : (n * 10 % 18446744073709551616 + (c.toNat - 48)) % 18446744073709551616
                < n * 10 % 18446744073709551616
              ∨ (n * 10 % 18446744073709551616 + (c.toNat - 48)) % 18446744073709551616
                > 18446744073709551616 - 1 := by
            left; omega
          simp only [hwrap, if_true, hbig]
        · have hn1 : (n * 10 % 18446744073709551616 + (c.toNat - 48)) % 18446744073709551616
              = n * 10 + (c.toNat - 48) := by omega
          have hnowrap : ¬ ((n * 10 % 18446744073709551616 + (c.toNat - 48))
                % 18446744073709551616 < n * 10 % 18446744073709551616
              ∨ (n * 10 % 18446744073709551616 + (c.toNat - 48)) % 18446744073709551616
                > 18446744073709551616 - 1) := by
            omega
          simp only [hnowrap, if_false]
          rw [hn1]
          have hih := ih (n * 10 + (c.toNat - 48)) (by unfold maxUint64; rw [two_pow_64]; omega)
          unfold maxUint64 at hih
          rw [two_pow_64] at hih
          rw [hih]
          simp
    · have hdig : isDigit c = false := by simp [isDigit]; omega
      have htw : (c :: cs).takeWhile isDigit = [] := by simp [List.takeWhile, hdig]
      have : ¬ maxUint64 < n := by omega
      rw [htw]
      unfold parseUintLoop
      simp [hd, decimalFrom, this]

theorem parseInt_value (neg : Bool) (body : List Char) :
    (if (ParseUint body 64).2 = some NumError.ErrSyntax then (0 : Int)
      else if neg = false ∧ (ParseUint body 64).1 ≥ 2 ^ (64 - 1) then
        toInt64 (((2 ^ (64 - 1) : Nat) : Int) - 1)
      else if neg = true ∧ (ParseUint body 64).1 > 2 ^ (64 - 1) then
        toInt64 (-((2 ^ (64 - 1) : Nat) : Int))
      else if neg = true then toInt64 (-(toInt64 ((ParseUint body 64).1 : Int)))
      else toInt64 ((ParseUint body 64).1 : Int))
    = numOf neg body := by
  unfold numOf
  by_cases hb : body = []
  · subst hb
    simp [ParseUint, decimalValue, decimalFrom, maxUint64]
  · unfold ParseUint
    rw [if_neg hb, parseUintLoop_spec body 0 (Nat.zero_le _)]
    unfold decimalValue
    by_cases h1 : maxUint64 < decimalFrom 0 (body.takeWhile isDigit)
    · have h1b : decimalFrom 0 (body.takeWhile isDigit) > maxUint64 := h1
      simp only [if_pos h1, if_pos h1b]
      cases neg <;> simp [toInt64, minInt, maxInt]
    · have h1b : ¬ decimalFrom 0 (body.takeWhile isDigit) > maxUint64 := h1
      simp only [if_neg h1, if_neg h1b]
      by_cases h2 : body.takeWhile isDigit ≠ body
      · simp [h2]
      · simp only [if_neg h2]
        have h2b : ¬ (body = [] ∨ body.takeWhile isDigit ≠ body) := by
          rintro (e | e)
          · exact hb e
          · exact h2 e
        simp only [if_neg h2b]
        unfold maxUint64 at h1
        rw [two_pow_64] at h1
        generalize decimalFrom 0 (body.takeWhile isDigit) = v at h1
        have hv : v < 18446744073709551616 := by omega
        have e63 : (2 : Nat) ^ (64 - 1) = 9223372036854775808 := by norm_num
        have i63 : (2 : Int) ^ 63 = 9223372036854775808 := by norm_num
        have i64 : (2 : Int) ^ 64 = 18446744073709551616 := by norm_num
        cases neg
        · simp only [e63, i63, i64, toInt64, maxInt, min_def, reduceCtorEq, if_false, true_and,
            false_and, Bool.false_eq_true]
          push_cast
          split_ifs <;> omega
        · simp only [e63, i63, i64, toInt64, minInt, max_def, reduceCtorEq, if_false, true_and,
            false_and, if_true, Bool.true_eq_false]
          push_cast
          split_ifs <;> omega

theorem parseInt_cons (c : Char) (cs : List Char) (neg : Bool) (body : List Char)
    (hneg : decide (c = '-') = neg)
    (hbody : (if c = '+' ∨ c = '-' then cs else c :: cs) = body) :
    (ParseInt (c :: cs) 64).1 = numOf neg body := by
  rw [← parseInt_value]
  simp only [ParseInt, hneg, hbody]
  split_ifs <;> simp_all

theorem Atoi_eq_num (k : String) : (Atoi k).1 = num k := by
  unfold Atoi num intSize
  cases k.data with
  | nil => simp [ParseInt, signOf, numOf, decimalValue, decimalFrom, maxUint64]
  | cons c cs =>
    by_cases hm : c = '-'
    · have hs : signOf (c :: cs) = (true, cs) := by simp [signOf, hm]
      rw [hs]
      exact parseInt_cons c cs true cs (by simp [hm]) (by simp [hm])
    · by_cases hp : c = '+'
      · have hs : signOf (c :: cs) = (false, cs) := by simp [signOf, hp]
        rw [hs]
        exact parseInt_cons c cs false cs (by simp [hm]) (by simp [hp])
      · have hs : signOf (c :: cs) = (false, c :: cs) := by simp [signOf, hm, hp]
        rw [hs]
        exact parseInt_cons c cs false (c :: cs) (by simp [hm]) (by simp [hm, hp])

theorem num_of_parses (k : String) (h : parses k = true) : num k = claimedNum k := by
  unfold claimedNum
  rw [if_pos h]
  unfold parses at h
  simp only [decide_eq_true_eq] at h
  obtain ⟨hne, hall, hlo, hhi⟩ := h
  have htw : (signOf k.data).2.takeWhile isDigit = (signOf k.data).2 := by
    rw [List.takeWhile_eq_self_iff]
    exact fun x hx => List.all_eq_true.mp hall x hx
  unfold num numOf
  simp only [htw]
  have i63 : (2 : Int) ^ 63 = 9223372036854775808 := by norm_num
  unfold minInt at hlo
  unfold maxInt at hhi
  rw [i63] at hlo hhi
  generalize decimalValue (signOf k.data).2 = v at hlo hhi ⊢
  cases hs : (signOf k.data).1
  · rw [hs] at hlo hhi
    simp only [Bool.false_eq_true, if_false] at hlo hhi ⊢
    have h1 : ¬ v > maxUint64 := by unfold maxUint64; rw [two_pow_64]; omega
    have h2 : ¬ ((signOf k.data).2 = [] ∨ (signOf k.data).2 ≠ (signOf k.data).2) := by
      rintro (e | e)
      · exact hne e
      · exact e rfl
    rw [if_neg h1, if_neg h2]
    unfold maxInt
    rw [i63]
    exact min_eq_right hhi
  · rw [hs] at hlo hhi
    simp only [if_true] at hlo hhi ⊢
    have h1 : ¬ v > maxUint64 := by unfold maxUint64; rw [two_pow_64]; omega
    have h2 : ¬ ((signOf k.data).2 = [] ∨ (signOf k.data).2 ≠ (signOf k.data).2) := by
      rintro (e | e)
      · exact hne e
      · exact e rfl
    rw [if_neg h1, if_neg h2]
    unfold minInt
    rw [i63]
    exact max_eq_right hlo

/-! ## The comparator -/

/-- C6 (counterexample): for the keys `5` and `99999999999999999999`, whose
digits do not fit the machine integer, `Less` holds, while the numeric values
in the words of the specification are five and zero. -/
theorem Less_overflow_not_zero :
    ¬ (Less [⟨"5", ""⟩, ⟨"99999999999999999999", ""⟩] ⟨0, by decide⟩ ⟨1, by decide⟩ = true
        ↔ claimedNum "5" < claimedNum "99999999999999999999") := by
  decide

/-- C6 (amended): `Less(i, j)` holds exactly when `num(kv[i].Key) <
num(kv[j].Key)`, where `num` is the base-10 value of a key that parses as an
integer, the extreme machine integer of the sign when the digits after the sign
exceed the machine range, and zero for the other keys that fail to parse. -/
theorem Less_iff_num (kv : KeyValues) (i j : Fin kv.length) :
    (Less kv i j = true ↔ num (kv.get i).Key < num (kv.get j).Key)
    ∧ (∀ k : String, parses k = true → num k = claimedNum k) := by
  refine ⟨?_, num_of_parses⟩
  unfold Less
  rw [lessKey_iff, Atoi_eq_num, Atoi_eq_num]

/-! ## Runs of `doReduce` whose source files all open -/

theorem doReduce_open_ok_fields (sortSort : KeyValues → KeyValues) (fs : FS)
    (jobName : String) (reduceTask : Int) (outFile : String) (nMap : Int)
    (reduceF : String → List String → String) (files : List (List Decoded))
    (h : (List.range nMap.toNat).map
          (fun m : Nat => fs.content (reduceName jobName (m : Int) reduceTask))
        = files.map some) :
    (doReduce sortSort fs jobName reduceTask outFile nMap reduceF).opened
        = (List.range nMap.toNat).map (fun m : Nat => reduceName jobName (m : Int) reduceTask)
    ∧ (doReduce sortSort fs jobName reduceTask outFile nMap reduceF).kvs = readAll files
    ∧ (doReduce sortSort fs jobName reduceTask outFile nMap reduceF).calls
        = runs (sortSort (readAll files))
    ∧ (doReduce sortSort fs jobName reduceTask outFile nMap reduceF).result
        = (runs (sortSort (readAll files))).map (reduced reduceF)
    ∧ (doReduce sortSort fs jobName reduceTask outFile nMap reduceF).fatal
        = !fs.canCreate outFile
    ∧ (doReduce sortSort fs jobName reduceTask outFile nMap reduceF).created
        = fs.canCreate outFile := by
  have hol := openLoop_ok fs jobName reduceTask (List.range nMap.toNat) [] [] files h
  simp only [List.nil_append] at hol
  rw [doReduce_open_ok sortSort fs jobName reduceTask outFile nMap reduceF _ _ hol]
  cases hc : fs.canCreate outFile <;>
    simp [groupPass_result_calls, groupPass_calls]

theorem doReduce_written (sortSort : KeyValues → KeyValues) (fs : FS)
    (jobName : String) (reduceTask : Int) (outFile : String) (nMap : Int)
    (reduceF : String → List String → String) (files : List (List Decoded))
    (h : (List.range nMap.toNat).map
          (fun m : Nat => fs.content (reduceName jobName (m : Int) reduceTask))
        = files.map some)
    (hc : fs.canCreate outFile = true) (he : ∀ i, fs.encodeFails outFile i = false) :
    (doReduce sortSort fs jobName reduceTask outFile nMap reduceF).fs.content outFile
      = some ((doReduce sortSort fs jobName reduceTask outFile nMap reduceF).result.map
          Decoded.record) := by
  have hol := openLoop_ok fs jobName reduceTask (List.range nMap.toNat) [] [] files h
  simp only [List.nil_append] at hol
  rw [doReduce_open_ok sortSort fs jobName reduceTask outFile nMap reduceF _ _ hol]
  simp [hc, encodeLoop_all_written _ he]

theorem sorted_filter_append (p : KeyValue → Bool) (s : KeyValues)
    (hs : s.Pairwise (fun a b => lessKey b a = false))
    (hp : ∀ a ∈ s, ∀ b ∈ s, p a = true → p b = false → lessKey a b = true) :
    s = s.filter p ++ s.filter (fun x => !p x) := by
  induction s with
  | nil => rfl
  | cons x t ih =>
    rw [List.pairwise_cons] at hs
    have iht := ih hs.2 (fun a ha b hb =>
      hp a (List.mem_cons_of_mem _ ha) b (List.mem_cons_of_mem _ hb))
    cases hx : p x with
    | true =>
      simp only [List.filter_cons, hx, if_true, Bool.not_true, Bool.false_eq_true, if_false,
        List.cons_append]
      rw [← iht]
    | false =>
      have hnone : t.filter p = [] := by
        rw [List.filter_eq_nil_iff]
        intro y hy hpy
        have h1 := hp y (List.mem_cons_of_mem _ hy) x (List.mem_cons_self _ _) hpy hx
        have h2 := hs.1 y hy
        rw [h1] at h2
        cases h2
      have hall : t.filter (fun x => !p x) = t := by
        rw [hnone, List.nil_append] at iht
        exact iht.symm
      simp only [List.filter_cons, hx, Bool.false_eq_true, if_false, Bool.not_false, if_true,
        hnone, hall, List.nil_append]

theorem expand_of_key (k : String) (l : KeyValues) (h : ∀ x ∈ l, x.Key = k) :
    expand (k, l.map KeyValue.Value) = l := by
  induction l with
  | nil => rfl
  | cons x t ih =>
    have hx := h x (List.mem_cons_self _ _)
    have iht := ih (fun y hy => h y (List.mem_cons_of_mem _ hy))
    unfold expand at iht ⊢
    simp only [List.map_cons, List.map_map] at iht ⊢
    rw [iht]
    obtain ⟨kk, vv⟩ := x
    simp only at hx
    subst hx
    rfl

/-! ## The example of three source files -/

/-- C7: with the three source files of partition 0 holding `[{1,a},{2,x}]`,
`[{1,b}]` and `[{2,y},{1,c}]` and `reduceF` joining its values with a comma,
`doReduce` calls `reduceF` twice and produces exactly two Result Records, in
this order: key `1` with the comma-join of a permutation of `a, b, c`, and key
`2` with the comma-join of a permutation of `x, y`; when the output file can
be created and no `Encode` fails, these two records are what it holds. -/
theorem doReduce_three_sources (sortSort : KeyValues → KeyValues) (hs : SortContract sortSort)
    (fs : FS) (jobName outFile : String)
    (h0 : fs.content (reduceName jobName 0 0)
      = some [Decoded.record ⟨"1", "a"⟩, Decoded.record ⟨"2", "x"⟩])
    (h1 : fs.content (reduceName jobName 1 0) = some [Decoded.record ⟨"1", "b"⟩])
    (h2 : fs.content (reduceName jobName 2 0)
      = some [Decoded.record ⟨"2", "y"⟩, Decoded.record ⟨"1", "c"⟩]) :
    ∃ p1 p2 : List String, p1.Perm ["a", "b", "c"] ∧ p2.Perm ["x", "y"]
      ∧ (doReduce sortSort fs jobName 0 outFile 3 joinComma).result
          = [⟨"1", joinComma "1" p1⟩, ⟨"2", joinComma "2" p2⟩]
      ∧ (doReduce sortSort fs jobName 0 outFile 3 joinComma).calls = [("1", p1), ("2", p2)]
      ∧ (fs.canCreate outFile = true → (∀ i, fs.encodeFails outFile i = false) →
          (doReduce sortSort fs jobName 0 outFile 3 joinComma).fs.content outFile
            = some [Decoded.record ⟨"1", joinComma "1" p1⟩,
                    Decoded.record ⟨"2", joinComma "2" p2⟩]) := by
  have hr : List.range (3 : Int).toNat = [0, 1, 2] := by decide
  have hfiles : (List.range (3 : Int).toNat).map
        (fun m : Nat => fs.content (reduceName jobName (m : Int) 0))
      = [[Decoded.record ⟨"1", "a"⟩, Decoded.record ⟨"2", "x"⟩],
         [Decoded.record ⟨"1", "b"⟩],
         [Decoded.record ⟨"2", "y"⟩, Decoded.record ⟨"1", "c"⟩]].map some := by
    rw [hr]
    simp [h0, h1, h2]
  obtain ⟨_, _, hcalls, hres, _, _⟩ :=
    doReduce_open_ok_fields sortSort fs jobName 0 outFile 3 joinComma _ hfiles
  have hwr := doReduce_written sortSort fs jobName 0 outFile 3 joinComma _ hfiles
  have hkvs : readAll [[Decoded.record ⟨"1", "a"⟩, Decoded.record ⟨"2", "x"⟩],
         [Decoded.record ⟨"1", "b"⟩],
         [Decoded.record ⟨"2", "y"⟩, Decoded.record ⟨"1", "c"⟩]]
      = [⟨"1", "a"⟩, ⟨"2", "x"⟩, ⟨"1", "b"⟩, ⟨"2", "y"⟩, ⟨"1", "c"⟩] := by decide
  rw [hkvs] at hcalls hres
  generalize hrun : doReduce sortSort fs jobName 0 outFile 3 joinComma = run at hcalls hres hwr ⊢
  have hperm := hs.perm [⟨"1", "a"⟩, ⟨"2", "x"⟩, ⟨"1", "b"⟩, ⟨"2", "y"⟩, ⟨"1", "c"⟩]
  have hsorted := pairwise_of_sorted _
    (hs.sorted [⟨"1", "a"⟩, ⟨"2", "x"⟩, ⟨"1", "b"⟩, ⟨"2", "y"⟩, ⟨"1", "c"⟩])
  generalize sortSort [⟨"1", "a"⟩, ⟨"2", "x"⟩, ⟨"1", "b"⟩, ⟨"2", "y"⟩, ⟨"1", "c"⟩] = s
    at hcalls hres hperm hsorted
  have hA : (s.filter (fun x => decide (x.Key = "1"))).Perm [⟨"1", "a"⟩, ⟨"1", "b"⟩, ⟨"1", "c"⟩] :=
    hperm.filter (fun x => decide (x.Key = "1"))
  have hB : (s.filter (fun x => !decide (x.Key = "1"))).Perm [⟨"2", "x"⟩, ⟨"2", "y"⟩] :=
    hperm.filter (fun x => !decide (x.Key = "1"))
  have hkeyA : ∀ x ∈ s.filter (fun x => decide (x.Key = "1")), x.Key = "1" := by
    intro x hx
    simpa using (List.mem_filter.mp hx).2
  have hkeyB : ∀ x ∈ s.filter (fun x => !decide (x.Key = "1")), x.Key = "2" := by
    intro x hx
    have := hB.subset hx
    simp only [List.mem_cons, List.mem_singleton, List.not_mem_nil, or_false] at this
    rcases this with e | e <;> rw [e]
  have hless : ∀ a ∈ s, ∀ b ∈ s, decide (a.Key = "1") = true → decide (b.Key = "1") = false →
      lessKey a b = true := by
    intro a _ b hb ha hnb
    have hka : a.Key = "1" := by simpa using ha
    have hkb : b.Key = "2" := by
      apply hkeyB
      rw [List.mem_filter]
      exact ⟨hb, by simp [hnb]⟩
    unfold lessKey
    rw [hka, hkb]
    decide
  have hsplit := sorted_filter_append (fun x => decide (x.Key = "1")) s hsorted hless
  have hruns : runs s
      = [("1", (s.filter (fun x => decide (x.Key = "1"))).map KeyValue.Value),
         ("2", (s.filter (fun x => !decide (x.Key = "1"))).map KeyValue.Value)] := by
    apply runs_unique
    · simp only [List.map_cons, List.map_nil, List.flatten_cons, List.flatten_nil,
        List.append_nil]
      rw [expand_of_key "1" _ hkeyA, expand_of_key "2" _ hkeyB]
      exact hsplit.symm
    · intro g hg
      simp only [List.mem_cons, List.mem_singleton, List.not_mem_nil, or_false] at hg
      rcases hg with e | e
      · rw [e]
        intro h
        have := (hA.map KeyValue.Value).length_eq
        simp only at h
        rw [h] at this
        simp at this
      · rw [e]
        intro h
        have := (hB.map KeyValue.Value).length_eq
        simp only at h
        rw [h] at this
        simp at this
    · rw [List.chain'_cons]
      exact ⟨by simp, List.chain'_singleton _⟩
  rw [hruns] at hcalls hres
  refine ⟨_, _, hA.map KeyValue.Value, hB.map KeyValue.Value, hres, hcalls, ?_⟩
  intro hc he
  rw [hwr hc he, hres]
  rfl

theorem doReduce_three_sources_witness :
    SortContract insertionSort
    ∧ fsThree.content (reduceName "job" 0 0)
        = some [Decoded.record ⟨"1", "a"⟩, Decoded.record ⟨"2", "x"⟩]
    ∧ fsThree.content (reduceName "job" 1 0) = some [Decoded.record ⟨"1", "b"⟩]
    ∧ fsThree.content (reduceName "job" 2 0)
        = some [Decoded.record ⟨"2", "y"⟩, Decoded.record ⟨"1", "c"⟩]
    ∧ ∃ p1 p2 : List String, p1.Perm ["a", "b", "c"] ∧ p2.Perm ["x", "y"]
      ∧ (doReduce insertionSort fsThree "job" 0 "out" 3 joinComma).result
          = [⟨"1", joinComma "1" p1⟩, ⟨"2", joinComma "2" p2⟩]
      ∧ (doReduce insertionSort fsThree "job" 0 "out" 3 joinComma).calls
          = [("1", p1), ("2", p2)]
      ∧ (fsThree.canCreate "out" = true → (∀ i, fsThree.encodeFails "out" i = false) →
          (doReduce insertionSort fsThree "job" 0 "out" 3 joinComma).fs.content "out"
            = some [Decoded.record ⟨"1", joinComma "1" p1⟩,
                    Decoded.record ⟨"2", joinComma "2" p2⟩]) :=
  ⟨insertionSort_contract, by decide, by decide, by decide,
    doReduce_three_sources insertionSort insertionSort_contract fsThree "job" "out"
      (by decide) (by decide) (by decide)⟩

/-! ## No source files -/

/-- C8 (counterexample): with `nMap = 0` on a file system where the output file
cannot be created, `os.Create` fails and `log.Fatal` ends the invocation: no
output artifact has been created. -/
theorem doReduce_no_sources_create_fails :
    ¬ ((doReduce insertionSort fsNoCreate "job" 0 "out" 0 joinComma).created = true
        ∧ (doReduce insertionSort fsNoCreate "job" 0 "out" 0 joinComma).fs.content "out"
            = some []) := by
  decide

/-- C8 (amended): `doReduce` with `nMap = 0` opens no intermediate file, never
calls `reduceF` and produces an empty Result sequence; when the output file can
be created it leaves the output artifact created and empty and every other file
as it was, and when it cannot be created the invocation aborts fatally with the
file system unchanged. -/
theorem doReduce_no_sources (sortSort : KeyValues → KeyValues) (hs : SortContract sortSort)
    (fs : FS) (jobName : String) (reduceTask : Int) (outFile : String)
    (reduceF : String → List String → String) :
    (doReduce sortSort fs jobName reduceTask outFile 0 reduceF).opened = []
    ∧ (doReduce sortSort fs jobName reduceTask outFile 0 reduceF).calls = []
    ∧ (doReduce sortSort fs jobName reduceTask outFile 0 reduceF).result = []
    ∧ (fs.canCreate outFile = true →
        (doReduce sortSort fs jobName reduceTask outFile 0 reduceF).fatal = false
        ∧ (doReduce sortSort fs jobName reduceTask outFile 0 reduceF).created = true
        ∧ (doReduce sortSort fs jobName reduceTask outFile 0 reduceF).fs.content outFile
            = some []
        ∧ ∀ name, name ≠ outFile →
            (doReduce sortSort fs jobName reduceTask outFile 0 reduceF).fs.content name
              = fs.content name)
    ∧ (fs.canCreate outFile = false →
        (doReduce sortSort fs jobName reduceTask outFile 0 reduceF).fatal = true
        ∧ (doReduce sortSort fs jobName reduceTask outFile 0 reduceF).created = false
        ∧ (doReduce sortSort fs jobName reduceTask outFile 0 reduceF).fs = fs) := by
  have hol : openLoop fs jobName reduceTask (List.range (0 : Int).toNat) [] [] = ([], [], true) :=
    rfl
  have hsort : sortSort (readAll []) = [] := List.Perm.eq_nil (hs.perm [])
  rw [doReduce_open_ok sortSort fs jobName reduceTask outFile 0 reduceF _ _ hol, hsort]
  cases hc : fs.canCreate outFile
  · simp [groupPass, flush]
  · simp [groupPass, flush, encodeLoop]
    intro name hname h
    exact absurd h hname

theorem doReduce_no_sources_witness :
    SortContract insertionSort
    ∧ (doReduce insertionSort fsLetters "job" 0 "out" 0 joinComma).opened = []
    ∧ (doReduce insertionSort fsLetters "job" 0 "out" 0 joinComma).calls = []
    ∧ (doReduce insertionSort fsLetters "job" 0 "out" 0 joinComma).result = []
    ∧ (fsLetters.canCreate "out" = true →
        (doReduce insertionSort fsLetters "job" 0 "out" 0 joinComma).fatal = false
        ∧ (doReduce insertionSort fsLetters "job" 0 "out" 0 joinComma).created = true
        ∧ (doReduce insertionSort fsLetters "job" 0 "out" 0 joinComma).fs.content "out"
            = some []
        ∧ ∀ name, name ≠ "out" →
            (doReduce insertionSort fsLetters "job" 0 "out" 0 joinComma).fs.content name
              = fsLetters.content name)
    ∧ (fsLetters.canCreate "out" = false →
        (doReduce insertionSort fsLetters "job" 0 "out" 0 joinComma).fatal = true
        ∧ (doReduce insertionSort fsLetters "job" 0 "out" 0 joinComma).created = false
        ∧ (doReduce insertionSort fsLetters "job" 0 "out" 0 joinComma).fs = fsLetters) :=
  ⟨insertionSort_contract,
    doReduce_no_sources insertionSort insertionSort_contract fsLetters "job" 0 "out" joinComma⟩

/-! ## A source file that cannot be opened -/

/-- C9: when for some `m` with `0 <= m < nMap` the file `reduceName(jobName, m,
reduceTask)` cannot be opened, the invocation aborts fatally before any record
is decoded, before `reduceF` is called and before the output file is created:
the Result sequence is empty and the file system is left as it was. -/
theorem doReduce_missing_source (sortSort : KeyValues → KeyValues) (fs : FS)
    (jobName : String) (reduceTask : Int) (outFile : String) (nMap : Int)
    (reduceF : String → List String → String)
    (m : Int) (h0 : 0 ≤ m) (h1 : m < nMap)
    (hm : fs.content (reduceName jobName m reduceTask) = none) :
    (doReduce sortSort fs jobName reduceTask outFile nMap reduceF).fatal = true
    ∧ (doReduce sortSort fs jobName reduceTask outFile nMap reduceF).kvs = []
    ∧ (doReduce sortSort fs jobName reduceTask outFile nMap reduceF).calls = []
    ∧ (doReduce sortSort fs jobName reduceTask outFile nMap reduceF).result = []
    ∧ (doReduce sortSort fs jobName reduceTask outFile nMap reduceF).created = false
    ∧ (doReduce sortSort fs jobName reduceTask outFile nMap reduceF).fs = fs := by
  have hfail : (openLoop fs jobName reduceTask (List.range nMap.toNat) [] []).2.2 = false := by
    apply openLoop_fail
    refine ⟨m.toNat, ?_, ?_⟩
    · rw [List.mem_range]
      omega
    · rw [Int.toNat_of_nonneg h0]
      exact hm
  rw [doReduce_open_fail sortSort fs jobName reduceTask outFile nMap reduceF hfail]
  exact ⟨rfl, rfl, rfl, rfl, rfl, rfl⟩

theorem doReduce_missing_source_witness :
    (0 : Int) ≤ 1 ∧ (1 : Int) < 2 ∧ fsLetters.content (reduceName "job" 1 0) = none
    ∧ (doReduce insertionSort fsLetters "job" 0 "out" 2 joinComma).fatal = true
    ∧ (doReduce insertionSort fsLetters "job" 0 "out" 2 joinComma).kvs = []
    ∧ (doReduce insertionSort fsLetters "job" 0 "out" 2 joinComma).calls = []
    ∧ (doReduce insertionSort fsLetters "job" 0 "out" 2 joinComma).result = []
    ∧ (doReduce insertionSort fsLetters "job" 0 "out" 2 joinComma).created = false
    ∧ (doReduce insertionSort fsLetters "job" 0 "out" 2 joinComma).fs = fsLetters :=
  ⟨by decide, by decide, by decide,
    doReduce_missing_source insertionSort fsLetters "job" 0 "out" 2 joinComma 1
      (by decide) (by decide) (by decide)⟩

/-! ## Decode failures -/

/-- C10 (counterexample): two source files that both open, the first with a
decode failure after its first record, on a file system where the output file
cannot be created.  The well-formed records are merged, but the invocation
aborts at `os.Create`. -/
theorem doReduce_truncated_create_fails :
    fsTruncatedNoCreate.content (reduceName "job" 0 0)
        = some [Decoded.record ⟨"1", "a"⟩, Decoded.failure, Decoded.record ⟨"2", "x"⟩]
    ∧ fsTruncatedNoCreate.content (reduceName "job" 1 0) = some [Decoded.record ⟨"3", "b"⟩]
    ∧ (doReduce insertionSort fsTruncatedNoCreate "job" 0 "out" 2 joinComma).kvs
        = [⟨"1", "a"⟩, ⟨"3", "b"⟩]
    ∧ ¬ ((doReduce insertionSort fsTruncatedNoCreate "job" 0 "out" 2 joinComma).fatal
        = false) := by
  decide

/-- C10 (amended): when every source file opens and the decode stream of each
file is a sequence of well-formed records followed by the end of the stream or
by a decode failure and whatever comes after it, the merged collection is
exactly the records before the first failure of each file, file after file;
nothing after a failure is merged, every file is decoded, and no decode failure
aborts the invocation: it goes on to reduce the merged collection and aborts
exactly when the output file cannot be created. -/
theorem doReduce_decodes_well_formed_part (sortSort : KeyValues → KeyValues) (fs : FS)
    (jobName : String) (reduceTask : Int) (outFile : String) (nMap : Int)
    (reduceF : String → List String → String)
    (parts : List (KeyValues × List Decoded))
    (htail : ∀ p ∈ parts, p.2 = [] ∨ ∃ junk, p.2 = Decoded.failure :: junk)
    (hfiles : (List.range nMap.toNat).map
          (fun m : Nat => fs.content (reduceName jobName (m : Int) reduceTask))
        = parts.map (fun p => some (p.1.map Decoded.record ++ p.2))) :
    (doReduce sortSort fs jobName reduceTask outFile nMap reduceF).kvs
        = (parts.map Prod.fst).flatten
    ∧ (doReduce sortSort fs jobName reduceTask outFile nMap reduceF).opened.length = nMap.toNat
    ∧ (doReduce sortSort fs jobName reduceTask outFile nMap reduceF).calls
        = runs (sortSort (parts.map Prod.fst).flatten)
    ∧ (doReduce sortSort fs jobName reduceTask outFile nMap reduceF).result
        = (runs (sortSort (parts.map Prod.fst).flatten)).map (reduced reduceF)
    ∧ (doReduce sortSort fs jobName reduceTask outFile nMap reduceF).fatal
        = !fs.canCreate outFile := by
  have hfiles2 : (List.range nMap.toNat).map
        (fun m : Nat => fs.content (reduceName jobName (m : Int) reduceTask))
      = (parts.map (fun p => p.1.map Decoded.record ++ p.2)).map some := by
    rw [hfiles, List.map_map]
    rfl
  obtain ⟨ho, hk, hc, hr, hf, _⟩ :=
    doReduce_open_ok_fields sortSort fs jobName reduceTask outFile nMap reduceF _ hfiles2
  have hread : readAll (parts.map (fun p => p.1.map Decoded.record ++ p.2))
      = (parts.map Prod.fst).flatten := by
    unfold readAll
    rw [foldl_decodeLoop parts htail]
    simp
  rw [hread] at hk hc hr
  refine ⟨hk, ?_, hc, hr, hf⟩
  rw [ho]
  simp

theorem doReduce_decodes_well_formed_part_witness :
    (∀ p ∈ [(([⟨"1", "a"⟩] : KeyValues), [Decoded.failure, Decoded.record ⟨"2", "x"⟩]),
            ([⟨"3", "b"⟩], [])],
        p.2 = [] ∨ ∃ junk, p.2 = Decoded.failure :: junk)
    ∧ (List.range (2 : Int).toNat).map
          (fun m : Nat => fsTruncated.content (reduceName "job" (m : Int) 0))
        = [(([⟨"1", "a"⟩] : KeyValues), [Decoded.failure, Decoded.record ⟨"2", "x"⟩]),
            ([⟨"3", "b"⟩], [])].map (fun p => some (p.1.map Decoded.record ++ p.2))
    ∧ (doReduce insertionSort fsTruncated "job" 0 "out" 2 joinComma).kvs
        = [⟨"1", "a"⟩, ⟨"3", "b"⟩]
    ∧ (doReduce insertionSort fsTruncated "job" 0 "out" 2 joinComma).fatal = false :=
  have ht : ∀ p ∈ [(([⟨"1", "a"⟩] : KeyValues), [Decoded.failure, Decoded.record ⟨"2", "x"⟩]),
            ([⟨"3", "b"⟩], [])],
        p.2 = [] ∨ ∃ junk, p.2 = Decoded.failure :: junk := by
    intro p hp
    simp only [List.mem_cons, List.mem_singleton, List.not_mem_nil, or_false] at hp
    rcases hp with e | e
    · exact Or.inr ⟨[Decoded.record ⟨"2", "x"⟩], by rw [e]⟩
    · exact Or.inl (by rw [e])
  have hw := doReduce_decodes_well_formed_part insertionSort fsTruncated "job" 0 "out" 2
    joinComma _ ht (by decide)
  ⟨ht, by decide, hw.1, hw.2.2.2.2⟩

/-! ## Running `doReduce` again -/

theorem doReduce_not_fatal (sortSort : KeyValues → KeyValues) (fs : FS)
    (jobName : String) (reduceTask : Int) (outFile : String) (nMap : Int)
    (reduceF : String → List String → String)
    (h : (doReduce sortSort fs jobName reduceTask outFile nMap reduceF).fatal = false) :
    fs.canCreate outFile = true
    ∧ ∃ files : List (List Decoded),
        (List.range nMap.toNat).map
          (fun m : Nat => fs.content (reduceName jobName (m : Int) reduceTask))
        = files.map some := by
  by_cases hex : ∃ m ∈ List.range nMap.toNat,
      fs.content (reduceName jobName (m : Int) reduceTask) = none
  · have hf := openLoop_fail fs jobName reduceTask (List.range nMap.toNat) [] [] hex
    rw [doReduce_open_fail sortSort fs jobName reduceTask outFile nMap reduceF hf] at h
    cases h
  · have hfiles : (List.range nMap.toNat).map
          (fun m : Nat => fs.content (reduceName jobName (m : Int) reduceTask))
        = ((List.range nMap.toNat).map
            (fun m : Nat => (fs.content (reduceName jobName (m : Int) reduceTask)).getD [])).map
            some := by
      rw [List.map_map]
      apply List.map_congr_left
      intro m hm
      cases hc : fs.content (reduceName jobName (m : Int) reduceTask) with
      | none => exact absurd ⟨m, hm, hc⟩ hex
      | some f => simp [hc]
    refine ⟨?_, _, hfiles⟩
    have hfat := (doReduce_open_ok_fields sortSort fs jobName reduceTask outFile nMap reduceF _
      hfiles).2.2.2.2.1
    rw [h] at hfat
    simpa using hfat.symm

theorem doReduce_output (sortSort : KeyValues → KeyValues) (fs : FS)
    (jobName : String) (reduceTask : Int) (outFile : String) (nMap : Int)
    (reduceF : String → List String → String) (files : List (List Decoded))
    (h : (List.range nMap.toNat).map
          (fun m : Nat => fs.content (reduceName jobName (m : Int) reduceTask))
        = files.map some)
    (hc : fs.canCreate outFile = true) :
    (doReduce sortSort fs jobName reduceTask outFile nMap reduceF).fs.content outFile
        = some (encodeLoop (fs.encodeFails outFile)
            ((runs (sortSort (readAll files))).map (reduced reduceF)) 0 [] 0).1
    ∧ (doReduce sortSort fs jobName reduceTask outFile nMap reduceF).fs.canCreate = fs.canCreate
    ∧ (doReduce sortSort fs jobName reduceTask outFile nMap reduceF).fs.encodeFails
        = fs.encodeFails
    ∧ ∀ name, name ≠ outFile →
        (doReduce sortSort fs jobName reduceTask outFile nMap reduceF).fs.content name
          = fs.content name := by
  have hol := openLoop_ok fs jobName reduceTask (List.range nMap.toNat) [] [] files h
  simp only [List.nil_append] at hol
  rw [doReduce_open_ok sortSort fs jobName reduceTask outFile nMap reduceF _ _ hol]
  simp only [hc, if_true, groupPass_result_calls, groupPass_calls, true_and]
  intro name hname
  simp [hname]

/-- C11 (counterexample): after a first invocation on the three source files
has completed, a second invocation with the same arguments, the same
intermediate files and the output file as the first one left it, during which
every `Encode` fails, completes as well (the failures are only reported) and
leaves the output file empty, not with what the first invocation wrote. -/
theorem doReduce_rerun_encode_fails :
    (doReduce insertionSort fsThree "job" 0 "out" 3 joinComma).fatal = false
    ∧ (∀ m : Nat, m < (3 : Int).toNat →
        fsThreeRerunFailing.content (reduceName "job" (m : Int) 0)
          = fsThree.content (reduceName "job" (m : Int) 0))
    ∧ fsThreeRerunFailing.content "out"
        = (doReduce insertionSort fsThree "job" 0 "out" 3 joinComma).fs.content "out"
    ∧ (doReduce insertionSort fsThreeRerunFailing "job" 0 "out" 3 joinComma).fatal = false
    ∧ (doReduce insertionSort fsThreeRerunFailing "job" 0 "out" 3 joinComma).result
        = (doReduce insertionSort fsThree "job" 0 "out" 3 joinComma).result
    ∧ (doReduce insertionSort fsThreeRerunFailing "job" 0 "out" 3 joinComma).fs.content "out"
        = some []
    ∧ ¬ ((doReduce insertionSort fsThreeRerunFailing "job" 0 "out" 3 joinComma).fs.content
          "out"
        = (doReduce insertionSort fsThree "job" 0 "out" 3 joinComma).fs.content "out") := by
  decide

/-- C11 (amended): when an invocation of `doReduce` completes and leaves the
intermediate files of its partition as they were, a second invocation with the
same arguments in which the `Encode` calls fail or succeed as in the first one
completes too and leaves the output file with exactly the contents the first
one wrote, with the same Result sequence.  The Result sequence depends on the
arguments and the intermediate files only, and the contents written on these
and on which `Encode` calls fail: they are the same on every file system that
has the same intermediate files, lets the output file be created and fails the
same `Encode` calls, whatever the output file or any other file held before. -/
theorem doReduce_rerun (sortSort : KeyValues → KeyValues) (fs : FS)
    (jobName : String) (reduceTask : Int) (outFile : String) (nMap : Int)
    (reduceF : String → List String → String)
    (hdone : (doReduce sortSort fs jobName reduceTask outFile nMap reduceF).fatal = false)
    (hsame : ∀ m : Nat, m < nMap.toNat →
      (doReduce sortSort fs jobName reduceTask outFile nMap reduceF).fs.content
          (reduceName jobName (m : Int) reduceTask)
        = fs.content (reduceName jobName (m : Int) reduceTask)) :
    (doReduce sortSort (doReduce sortSort fs jobName reduceTask outFile nMap reduceF).fs
        jobName reduceTask outFile nMap reduceF).fatal = false
    ∧ (doReduce sortSort (doReduce sortSort fs jobName reduceTask outFile nMap reduceF).fs
        jobName reduceTask outFile nMap reduceF).fs.content outFile
      = (doReduce sortSort fs jobName reduceTask outFile nMap reduceF).fs.content outFile
    ∧ (doReduce sortSort (doReduce sortSort fs jobName reduceTask outFile nMap reduceF).fs
        jobName reduceTask outFile nMap reduceF).result
      = (doReduce sortSort fs jobName reduceTask outFile nMap reduceF).result
    ∧ ∀ fs2 : FS,
        (∀ m : Nat, m < nMap.toNat →
          fs2.content (reduceName jobName (m : Int) reduceTask)
            = fs.content (reduceName jobName (m : Int) reduceTask)) →
        (doReduce sortSort fs2 jobName reduceTask outFile nMap reduceF).result
          = (doReduce sortSort fs jobName reduceTask outFile nMap reduceF).result
        ∧ (fs2.canCreate outFile = true →
            (doReduce sortSort fs2 jobName reduceTask outFile nMap reduceF).fatal = false
            ∧ ((∀ i, fs2.encodeFails outFile i = fs.encodeFails outFile i) →
                (doReduce sortSort fs2 jobName reduceTask outFile nMap reduceF).fs.content
                    outFile
                  = (doReduce sortSort fs jobName reduceTask outFile nMap reduceF).fs.content
                    outFile)) := by
  obtain ⟨hc, files, hfiles⟩ :=
    doReduce_not_fatal sortSort fs jobName reduceTask outFile nMap reduceF hdone
  obtain ⟨hout, hcan, henc, _⟩ :=
    doReduce_output sortSort fs jobName reduceTask outFile nMap reduceF files hfiles hc
  have hres := (doReduce_open_ok_fields sortSort fs jobName reduceTask outFile nMap reduceF
    files hfiles).2.2.2.1
  have hgen : ∀ fs2 : FS,
      (∀ m : Nat, m < nMap.toNat →
        fs2.content (reduceName jobName (m : Int) reduceTask)
          = fs.content (reduceName jobName (m : Int) reduceTask)) →
      (doReduce sortSort fs2 jobName reduceTask outFile nMap reduceF).result
        = (doReduce sortSort fs jobName reduceTask outFile nMap reduceF).result
      ∧ (fs2.canCreate outFile = true →
          (doReduce sortSort fs2 jobName reduceTask outFile nMap reduceF).fatal = false
          ∧ ((∀ i, fs2.encodeFails outFile i = fs.encodeFails outFile i) →
              (doReduce sortSort fs2 jobName reduceTask outFile nMap reduceF).fs.content
                  outFile
                = (doReduce sortSort fs jobName reduceTask outFile nMap reduceF).fs.content
                  outFile)) := by
    intro fs2 h2
    have hfiles2 : (List.range nMap.toNat).map
          (fun m : Nat => fs2.content (reduceName jobName (m : Int) reduceTask))
        = files.map some := by
      rw [← hfiles]
      apply List.map_congr_left
      intro m hm
      exact h2 m (List.mem_range.mp hm)
    obtain ⟨_, _, _, hres2, hfat2, _⟩ :=
      doReduce_open_ok_fields sortSort fs2 jobName reduceTask outFile nMap reduceF files hfiles2
    refine ⟨by rw [hres2, hres], ?_⟩
    intro hc2
    refine ⟨by rw [hfat2, hc2]; rfl, ?_⟩
    intro he2
    have hout2 := (doReduce_output sortSort fs2 jobName reduceTask outFile nMap reduceF files
      hfiles2 hc2).1
    rw [hout2, hout]
    have hfun : fs2.encodeFails outFile = fs.encodeFails outFile := funext he2
    rw [hfun]
  obtain ⟨h2, h13⟩ :=
    hgen (doReduce sortSort fs jobName reduceTask outFile nMap reduceF).fs hsame
  obtain ⟨h1, h3⟩ := h13 (by rw [hcan]; exact hc)
  exact ⟨h1, h3 (fun i => by rw [henc]), h2, hgen⟩

theorem doReduce_rerun_witness :
    (doReduce insertionSort fsThree "job" 0 "out" 3 joinComma).fatal = false
    ∧ (∀ m : Nat, m < (3 : Int).toNat →
        (doReduce insertionSort fsThree "job" 0 "out" 3 joinComma).fs.content
            (reduceName "job" (m : Int) 0)
          = fsThree.content (reduceName "job" (m : Int) 0))
    ∧ (doReduce insertionSort (doReduce insertionSort fsThree "job" 0 "out" 3 joinComma).fs
        "job" 0 "out" 3 joinComma).fs.content "out"
      = (doReduce insertionSort fsThree "job" 0 "out" 3 joinComma).fs.content "out" :=
  have h1 : (doReduce insertionSort fsThree "job" 0 "out" 3 joinComma).fatal = false := by
    decide
  have h2 : ∀ m : Nat, m < (3 : Int).toNat →
        (doReduce insertionSort fsThree "job" 0 "out" 3 joinComma).fs.content
            (reduceName "job" (m : Int) 0)
          = fsThree.content (reduceName "job" (m : Int) 0) := by
    decide
  ⟨h1, h2,
    (doReduce_rerun insertionSort fsThree "job" 0 "out" 3 joinComma h1 h2).2.1⟩

/-! ## `strconv.Itoa` and the file names -/

theorem digitChar_toNat (m : Nat) (h : m < 10) : (Nat.digitChar m).toNat = 48 + m := by
  interval_cases m <;> rfl

theorem digitChar_isDigit (m : Nat) (h : m < 10) : isDigit (Nat.digitChar m) = true := by
  have := digitChar_toNat m h
  simp only [isDigit, decide_eq_true_eq]
  omega

theorem decimalFrom_cons (n : Nat) (c : Char) (ds : List Char) :
    decimalFrom n (c :: ds) = decimalFrom (n * 10 + (c.toNat - 48)) ds := rfl

theorem toDigitsCore_value (fuel : Nat) :
    ∀ (n : Nat) (ds : List Char), n < fuel →
      decimalFrom 0 (Nat.toDigitsCore 10 fuel n ds) = decimalFrom n ds := by
  induction fuel with
  | zero => intro n ds h; omega
  | succ fuel ih =>
    intro n ds h
    have hd := digitChar_toNat (n % 10) (Nat.mod_lt _ (by norm_num))
    unfold Nat.toDigitsCore
    by_cases h0 : n / 10 = 0
    · simp only [h0, if_true]
      rw [decimalFrom_cons, hd]
      congr 1
      omega
    · simp only [h0, if_false]
      rw [ih (n / 10) _ (by omega), decimalFrom_cons, hd]
      congr 1
      omega

theorem toDigitsCore_digits (fuel : Nat) :
    ∀ (n : Nat) (ds : List Char), (∀ c ∈ ds, isDigit c = true) →
      ∀ c ∈ Nat.toDigitsCore 10 fuel n ds, isDigit c = true := by
  induction fuel with
  | zero => intro n ds h c hc; exact h c hc
  | succ fuel ih =>
    intro n ds h
    have hd := digitChar_isDigit (n % 10) (Nat.mod_lt _ (by norm_num))
    have hcons : ∀ c ∈ Nat.digitChar (n % 10) :: ds, isDigit c = true := by
      intro c hc
      rcases List.mem_cons.mp hc with e | e
      · rw [e]; exact hd
      · exact h c e
    unfold Nat.toDigitsCore
    by_cases h0 : n / 10 = 0
    · simp only [h0, if_true]
      exact hcons
    · simp only [h0, if_false]
      exact ih _ _ hcons

theorem toDigitsCore_head (fuel : Nat) :
    ∀ (n : Nat) (ds : List Char), n < fuel → 0 < n →
      ∃ c rest, Nat.toDigitsCore 10 fuel n ds = c :: rest ∧ c ≠ '0' := by
  induction fuel with
  | zero => intro n ds h; omega
  | succ fuel ih =>
    intro n ds h hpos
    unfold Nat.toDigitsCore
    by_cases h0 : n / 10 = 0
    · simp only [h0, if_true]
      refine ⟨_, _, rfl, ?_⟩
      intro e
      have hd := digitChar_toNat (n % 10) (Nat.mod_lt _ (by norm_num))
      rw [e] at hd
      have h48 : ('0' : Char).toNat = 48 := rfl
      omega
    · simp only [h0, if_false]
      exact ih _ _ (by omega) (by omega)

theorem toDigits_isDecimalNat (n : Nat) : isDecimalNat n (Nat.toDigits 10 n) = true := by
  unfold Nat.toDigits
  have hval : decimalValue (Nat.toDigitsCore 10 (n + 1) n []) = n := by
    unfold decimalValue
    rw [toDigitsCore_value (n + 1) n [] (by omega)]
    rfl
  have hall : (Nat.toDigitsCore 10 (n + 1) n []).all isDigit = true := by
    rw [List.all_eq_true]
    exact toDigitsCore_digits (n + 1) n [] (by simp)
  rcases Nat.eq_zero_or_pos n with h0 | hpos
  · subst h0
    decide
  · obtain ⟨c, rest, hc, hne⟩ := toDigitsCore_head (n + 1) n [] (by omega) hpos
    unfold isDecimalNat
    rw [hall, hval]
    rw [hc]
    simp [hne]

theorem Itoa_isDecimal (i : Int) : isDecimal i (Itoa i) = true := by
  cases i with
  | ofNat n =>
    have h0 : (0 : Int) ≤ Int.ofNat n := Int.ofNat_nonneg n
    unfold isDecimal
    rw [if_pos h0]
    exact toDigits_isDecimalNat n
  | negSucc n =>
    have h0 : ¬ (0 : Int) ≤ Int.negSucc n := by
      intro h
      exact absurd h (by simp [Int.negSucc_lt_zero])
    unfold isDecimal
    rw [if_neg h0]
    have hd : (Itoa (Int.negSucc n)).data = '-' :: Nat.toDigits 10 (n + 1) := rfl
    rw [hd]
    have hn : (-(Int.negSucc n)).toNat = n + 1 := by
      rw [Int.neg_negSucc]
      rfl
    simp only [hn, decide_True, Bool.true_and]
    exact toDigits_isDecimalNat (n + 1)

theorem isDecimalNat_iff (n : Nat) (t : List Char) :
    isDecimalNat n t = true ↔
      t ≠ [] ∧ (∀ c ∈ t, isDigit c = true) ∧ decimalValue t = n
        ∧ (t.head? = some '0' → t = ['0']) := by
  simp only [isDecimalNat, Bool.and_eq_true, decide_eq_true_eq, List.all_eq_true, and_assoc]

theorem char_eq_of_toNat (c d : Char) (h : c.toNat = d.toNat) : c = d := by
  rw [← Char.ofNat_toNat c, h, Char.ofNat_toNat]

theorem decimalValue_concat (t : List Char) (c : Char) :
    decimalValue (t ++ [c]) = decimalValue t * 10 + (c.toNat - 48) := by
  simp [decimalValue, decimalFrom, List.foldl_append]

theorem decimalValue_pos (t : List Char) (hne : t ≠ []) (hd : ∀ c ∈ t, isDigit c = true)
    (hz : t.head? ≠ some '0') : 0 < decimalValue t := by
  cases t with
  | nil => exact absurd rfl hne
  | cons c rest =>
    have hc := hd c (List.mem_cons_self _ _)
    simp only [isDigit, decide_eq_true_eq] at hc
    have hc0 : c ≠ '0' := fun e => hz (by rw [e]; rfl)
    have h48 : c.toNat ≠ 48 := fun e => hc0 (char_eq_of_toNat c '0' e)
    have hge := decimalFrom_ge rest (0 * 10 + (c.toNat - 48))
    have e : decimalValue (c :: rest) = decimalFrom (0 * 10 + (c.toNat - 48)) rest := rfl
    rw [e]
    omega

theorem decimal_unique (t : List Char) :
    ∀ u : List Char,
      t ≠ [] → (∀ c ∈ t, isDigit c = true) → (t.head? = some '0' → t = ['0']) →
      u ≠ [] → (∀ c ∈ u, isDigit c = true) → (u.head? = some '0' → u = ['0']) →
      decimalValue t = decimalValue u → t = u := by
  induction t using List.reverseRecOn with
  | nil => intro u h; exact absurd rfl h
  | append_singleton t c ih =>
    intro u _ htd htz hune hud huz hv
    rcases List.eq_nil_or_concat u with e | ⟨u2, d, e⟩
    · exact absurd e hune
    · rw [List.concat_eq_append] at e
      subst e
      rw [decimalValue_concat, decimalValue_concat] at hv
      have hc := htd c (by simp)
      have hdd := hud d (by simp)
      simp only [isDigit, decide_eq_true_eq] at hc hdd
      have hcd : c = d := char_eq_of_toNat c d (by omega)
      have hval : decimalValue t = decimalValue u2 := by omega
      subst hcd
      have hinit : ∀ (w : List Char) (x : Char), w ≠ [] →
          ((w ++ [x]).head? = some '0' → w ++ [x] = ['0']) → w.head? ≠ some '0' := by
        intro w x hw hz hh
        have h1 := hz (by rw [List.head?_append_of_ne_nil _ hw]; exact hh)
        have h2 := congrArg List.length h1
        cases w with
        | nil => exact hw rfl
        | cons y ys => simp at h2
      by_cases ht : t = []
      · by_cases hu : u2 = []
        · rw [ht, hu]
        · have hpos := decimalValue_pos u2 hu (fun x hx => hud x (by simp [hx]))
            (hinit u2 c hu huz)
          rw [← hval, ht] at hpos
          exact absurd hpos (by decide)
      · by_cases hu : u2 = []
        · have hpos := decimalValue_pos t ht (fun x hx => htd x (by simp [hx]))
            (hinit t c ht htz)
          rw [hval, hu] at hpos
          exact absurd hpos (by decide)
        · have := ih u2 ht (fun x hx => htd x (by simp [hx]))
            (fun hh => absurd hh (hinit t c ht htz))
            hu (fun x hx => hud x (by simp [hx]))
            (fun hh => absurd hh (hinit u2 c hu huz)) hval
          rw [this]

theorem isDecimalNat_unique (n : Nat) (t u : List Char)
    (ht : isDecimalNat n t = true) (hu : isDecimalNat n u = true) : t = u := by
  rw [isDecimalNat_iff] at ht hu
  exact decimal_unique t u ht.1 ht.2.1 ht.2.2.2 hu.1 hu.2.1 hu.2.2.2 (ht.2.2.1.trans hu.2.2.1.symm)

theorem isDecimal_unique (i : Int) (s u : String)
    (hs : isDecimal i s = true) (hu : isDecimal i u = true) : s = u := by
  unfold isDecimal at hs hu
  apply String.ext
  by_cases h0 : 0 ≤ i
  · rw [if_pos h0] at hs hu
    exact isDecimalNat_unique _ _ _ hs hu
  · rw [if_neg h0] at hs hu
    cases hsd : s.data with
    | nil => rw [hsd] at hs; cases hs
    | cons c t =>
      cases hud : u.data with
      | nil => rw [hud] at hu; cases hu
      | cons d v =>
        rw [hsd] at hs
        rw [hud] at hu
        simp only [Bool.and_eq_true, decide_eq_true_eq] at hs hu
        rw [hs.1, hu.1, isDecimalNat_unique _ _ _ hs.2 hu.2]

/-- C12: for every job name and all integers `mapTask`, `reduceTask`,
`reduceName(jobName, mapTask, reduceTask)` is the string `mrtmp.` followed by
`jobName`, `-`, the decimal representation of `mapTask`, `-` and the decimal
representation of `reduceTask`, for whichever strings `dm`, `dr` are these
decimal representations; no index is rejected. -/
theorem reduceName_format (jobName : String) (mapTask reduceTask : Int) :
    (∃ dm dr : String, isDecimal mapTask dm = true ∧ isDecimal reduceTask dr = true)
    ∧ ∀ dm dr : String, isDecimal mapTask dm = true → isDecimal reduceTask dr = true →
        reduceName jobName mapTask reduceTask
          = "mrtmp." ++ jobName ++ "-" ++ dm ++ "-" ++ dr := by
  refine ⟨⟨Itoa mapTask, Itoa reduceTask, Itoa_isDecimal mapTask, Itoa_isDecimal reduceTask⟩, ?_⟩
  intro dm dr hm hr
  rw [isDecimal_unique mapTask dm (Itoa mapTask) hm (Itoa_isDecimal mapTask),
    isDecimal_unique reduceTask dr (Itoa reduceTask) hr (Itoa_isDecimal reduceTask)]
  rfl

/-- C13: for every job name and every integer `reduceTask`,
`mergeName(jobName, reduceTask)` is the string `mrtmp.` followed by `jobName`,
`-res-` and the decimal representation of `reduceTask`, for whichever string
`dr` is this decimal representation. -/
theorem mergeName_format (jobName : String) (reduceTask : Int) :
    (∃ dr : String, isDecimal reduceTask dr = true)
    ∧ ∀ dr : String, isDecimal reduceTask dr = true →
        mergeName jobName reduceTask = "mrtmp." ++ jobName ++ "-res-" ++ dr := by
  refine ⟨⟨Itoa reduceTask, Itoa_isDecimal reduceTask⟩, ?_⟩
  intro dr hr
  rw [isDecimal_unique reduceTask dr (Itoa reduceTask) hr (Itoa_isDecimal reduceTask)]
  rfl

/-! ## Keys with distinct numeric interpretations -/

theorem strict_of_chain (K : List String) (hch : K.Chain' (fun a b => a ≠ b))
    (hpw : K.Pairwise (fun a b => num a ≤ num b))
    (hinj : ∀ a ∈ K, ∀ b ∈ K, num a = num b → a = b) :
    K.Pairwise (fun a b => num a < num b) := by
  induction K with
  | nil => exact List.Pairwise.nil
  | cons a rest ih =>
    rw [List.pairwise_cons] at hpw ⊢
    refine ⟨?_, ih hch.tail hpw.2 (fun x hx y hy =>
      hinj x (List.mem_cons_of_mem _ hx) y (List.mem_cons_of_mem _ hy))⟩
    intro b hb
    cases rest with
    | nil => cases hb
    | cons c rest2 =>
      have hac : a ≠ c := (List.chain'_cons.mp hch).1
      have hle_ac := hpw.1 c (List.mem_cons_self _ _)
      have hle_ab := hpw.1 b hb
      have hle_cb : num c ≤ num b := by
        rcases List.mem_cons.mp hb with e | e
        · rw [e]
        · exact (List.pairwise_cons.mp hpw.2).1 b e
      rcases lt_or_eq_of_le hle_ab with h | h
      · exact h
      · exfalso
        have hca : num a = num c := le_antisymm hle_ac (by rw [h]; exact hle_cb)
        exact hac (hinj a (List.mem_cons_self _ _) c
          (List.mem_cons_of_mem _ (List.mem_cons_self _ _)) hca)

theorem runs_strictly_increasing (s : KeyValues)
    (hsorted : s.Pairwise (fun a b => lessKey b a = false))
    (hinj : ∀ a ∈ s, ∀ b ∈ s, num a.Key = num b.Key → a.Key = b.Key) :
    ((runs s).map Prod.fst).Pairwise (fun a b => num a < num b) := by
  apply strict_of_chain
  · rw [List.chain'_map]
    exact runs_chain s
  · have hkeys : (s.map KeyValue.Key).Pairwise (fun a b => num a ≤ num b) := by
      rw [List.pairwise_map]
      refine hsorted.imp ?_
      intro a b h
      rw [lessKey_false_iff, Atoi_eq_num, Atoi_eq_num] at h
      exact h
    exact hkeys.sublist (runs_keys_sublist s)
  · intro a ha b hb hab
    rw [runs_keys_mem, List.mem_map] at ha hb
    obtain ⟨x, hx, ex⟩ := ha
    obtain ⟨y, hy, ey⟩ := hb
    rw [← ex, ← ey] at hab ⊢
    exact hinj x hx y hy hab

theorem filter_expand_self (g : String × List String) :
    (expand g).filter (fun kv => decide (kv.Key = g.1)) = expand g := by
  rw [List.filter_eq_self]
  intro kv hkv
  unfold expand at hkv
  obtain ⟨v, _, e⟩ := List.mem_map.mp hkv
  rw [← e]
  simp

theorem filter_expand_other (g : String × List String) (k : String) (h : g.1 ≠ k) :
    (expand g).filter (fun kv => decide (kv.Key = k)) = [] := by
  rw [List.filter_eq_nil_iff]
  intro kv hkv
  unfold expand at hkv
  obtain ⟨v, _, e⟩ := List.mem_map.mp hkv
  rw [← e]
  simpa using h

theorem filter_groups_other (gs : List (String × List String)) (k : String)
    (h : k ∉ gs.map Prod.fst) :
    ((gs.map expand).flatten).filter (fun kv => decide (kv.Key = k)) = [] := by
  induction gs with
  | nil => rfl
  | cons g rest ih =>
    simp only [List.map_cons, List.mem_cons, not_or] at h
    simp only [List.map_cons, List.flatten_cons, List.filter_append]
    rw [filter_expand_other g k (fun e => h.1 e.symm), ih h.2]
    rfl

theorem expand_values (g : String × List String) : (expand g).map KeyValue.Value = g.2 := by
  unfold expand
  rw [List.map_map]
  exact List.map_id _

theorem group_values (gs : List (String × List String))
    (hnd : (gs.map Prod.fst).Nodup) (g : String × List String) (hg : g ∈ gs) :
    (((gs.map expand).flatten).filter (fun kv => decide (kv.Key = g.1))).map KeyValue.Value
      = g.2 := by
  induction gs with
  | nil => cases hg
  | cons g0 rest ih =>
    simp only [List.map_cons, List.nodup_cons] at hnd
    simp only [List.map_cons, List.flatten_cons, List.filter_append, List.map_append]
    rcases List.mem_cons.mp hg with e | e
    · subst e
      rw [filter_expand_self, filter_groups_other rest g.1 hnd.1, expand_values]
      simp
    · have hne : g0.1 ≠ g.1 := by
        intro e2
        exact hnd.1 (by rw [e2]; exact List.mem_map.mpr ⟨g, e, rfl⟩)
      rw [filter_expand_other g0 g.1 hne, ih hnd.2 e]
      rfl

/-- C14: when any two distinct keys of the input have distinct numeric
interpretations, the sort puts the records of each key next to one another:
the sorted collection is the concatenation of the groups `reduceF` is called
on, no two of which have the same key.  The Result sequence then has exactly
one record per distinct key of the input, in strictly increasing numeric order
of the keys, and the record of key `k` has the value `reduceF(k, vs)` with `vs`
a permutation of the values of all input records with key `k`. -/
theorem doReduce_distinct_numeric_keys (sortSort : KeyValues → KeyValues)
    (hs : SortContract sortSort)
    (fs : FS) (jobName : String) (reduceTask : Int) (outFile : String) (nMap : Int)
    (reduceF : String → List String → String)
    (hinj : ∀ a ∈ (doReduce sortSort fs jobName reduceTask outFile nMap reduceF).kvs,
      ∀ b ∈ (doReduce sortSort fs jobName reduceTask outFile nMap reduceF).kvs,
        num a.Key = num b.Key → a.Key = b.Key) :
    ((doReduce sortSort fs jobName reduceTask outFile nMap reduceF).calls.map expand).flatten
        = sortSort (doReduce sortSort fs jobName reduceTask outFile nMap reduceF).kvs
    ∧ ((doReduce sortSort fs jobName reduceTask outFile nMap reduceF).calls.map
        Prod.fst).Nodup
    ∧ ((doReduce sortSort fs jobName reduceTask outFile nMap reduceF).result.map
        KeyValue.Key).Nodup
    ∧ (∀ k, k ∈ (doReduce sortSort fs jobName reduceTask outFile nMap reduceF).kvs.map
          KeyValue.Key
        ↔ k ∈ (doReduce sortSort fs jobName reduceTask outFile nMap reduceF).result.map
          KeyValue.Key)
    ∧ (doReduce sortSort fs jobName reduceTask outFile nMap reduceF).result.Pairwise
        (fun a b => num a.Key < num b.Key)
    ∧ ∀ r ∈ (doReduce sortSort fs jobName reduceTask outFile nMap reduceF).result,
        ∃ vs : List String,
          vs.Perm (((doReduce sortSort fs jobName reduceTask outFile nMap reduceF).kvs.filter
            (fun kv => decide (kv.Key = r.Key))).map KeyValue.Value)
          ∧ (r.Key, vs) ∈ (doReduce sortSort fs jobName reduceTask outFile nMap reduceF).calls
          ∧ r.Value = reduceF r.Key vs := by
  generalize hrun : doReduce sortSort fs jobName reduceTask outFile nMap reduceF = run at hinj ⊢
  have hcases := doReduce_result_cases sortSort fs jobName reduceTask outFile nMap reduceF
  rw [hrun] at hcases
  have hperm := hs.perm run.kvs
  rcases hcases with ⟨h1, h2, h3⟩ | ⟨h1, h2⟩
  · rw [h1] at hperm
    have hnil : sortSort [] = [] := List.Perm.eq_nil hperm
    rw [h1, h2, h3, hnil]
    simp
  · have hsorted := pairwise_of_sorted _ (hs.sorted run.kvs)
    have hinj2 : ∀ a ∈ sortSort run.kvs, ∀ b ∈ sortSort run.kvs,
        num a.Key = num b.Key → a.Key = b.Key :=
      fun a ha b hb => hinj a (hperm.subset ha) b (hperm.subset hb)
    have hstrict := runs_strictly_increasing (sortSort run.kvs) hsorted hinj2
    have hnd : ((runs (sortSort run.kvs)).map Prod.fst).Nodup :=
      hstrict.imp (fun h e => by rw [e] at h; exact lt_irrefl _ h)
    have hkeys : (run.result.map KeyValue.Key) = (runs (sortSort run.kvs)).map Prod.fst := by
      rw [h1, List.map_map]
      rfl
    rw [hkeys, h2]
    refine ⟨runs_expand _, hnd, hnd, ?_, ?_, ?_⟩
    · intro k
      rw [runs_keys_mem]
      exact ((hperm.map KeyValue.Key).mem_iff).symm
    · rw [h1, List.pairwise_map]
      rw [List.pairwise_map] at hstrict
      exact hstrict
    · intro r hr
      rw [h1] at hr
      obtain ⟨g, hg, e⟩ := List.mem_map.mp hr
      subst e
      refine ⟨g.2, ?_, hg, rfl⟩
      have hv := group_values (runs (sortSort run.kvs)) hnd g hg
      rw [runs_expand] at hv
      have hp : ((sortSort run.kvs).filter (fun kv => decide (kv.Key = g.1))).Perm
          (run.kvs.filter (fun kv => decide (kv.Key = g.1))) :=
        hperm.filter _
      have hp2 := hp.map KeyValue.Value
      rw [hv] at hp2
      exact hp2

theorem doReduce_distinct_numeric_keys_witness :
    SortContract insertionSort
    ∧ (∀ a ∈ (doReduce insertionSort fsThree "job" 0 "out" 3 joinComma).kvs,
      ∀ b ∈ (doReduce insertionSort fsThree "job" 0 "out" 3 joinComma).kvs,
        num a.Key = num b.Key → a.Key = b.Key)
    ∧ ((doReduce insertionSort fsThree "job" 0 "out" 3 joinComma).result.map
        KeyValue.Key).Nodup
    ∧ (doReduce insertionSort fsThree "job" 0 "out" 3 joinComma).result.Pairwise
        (fun a b => num a.Key < num b.Key) :=
  have hinj : ∀ a ∈ (doReduce insertionSort fsThree "job" 0 "out" 3 joinComma).kvs,
      ∀ b ∈ (doReduce insertionSort fsThree "job" 0 "out" 3 joinComma).kvs,
        num a.Key = num b.Key → a.Key = b.Key := by
    decide
  have hw := doReduce_distinct_numeric_keys insertionSort insertionSort_contract fsThree
    "job" 0 "out" 3 joinComma hinj
  ⟨insertionSort_contract, hinj, hw.2.2.1, hw.2.2.2.2.1⟩

/-! ## The values passed to `reduceF` -/

theorem flatten_expand_values (gs : List (String × List String)) :
    ((gs.map expand).flatten).map KeyValue.Value = (gs.map Prod.snd).flatten := by
  induction gs with
  | nil => rfl
  | cons g rest ih =>
    simp only [List.map_cons, List.flatten_cons, List.map_append]
    rw [ih, expand_values]

theorem runs_length_le (kvs : KeyValues) : (runs kvs).length ≤ kvs.length := by
  have h := (runs_keys_sublist kvs).length_le
  simpa using h

/-- C15: no value is lost or duplicated between decoding and reduction.  The
records made of each value passed to `reduceF` together with the key it is
passed with, over all calls in order, are a permutation of the decoded input
records; in particular the concatenation of the value lists is a permutation
of the values of the decoded records. -/
theorem doReduce_values_preserved (sortSort : KeyValues → KeyValues)
    (hs : SortContract sortSort)
    (fs : FS) (jobName : String) (reduceTask : Int) (outFile : String) (nMap : Int)
    (reduceF : String → List String → String) :
    (((doReduce sortSort fs jobName reduceTask outFile nMap reduceF).calls.map expand).flatten).Perm
        (doReduce sortSort fs jobName reduceTask outFile nMap reduceF).kvs
    ∧ (((doReduce sortSort fs jobName reduceTask outFile nMap reduceF).calls.map
          Prod.snd).flatten).Perm
        ((doReduce sortSort fs jobName reduceTask outFile nMap reduceF).kvs.map
          KeyValue.Value) := by
  have hfirst : (((doReduce sortSort fs jobName reduceTask outFile nMap reduceF).calls.map
        expand).flatten).Perm
      (doReduce sortSort fs jobName reduceTask outFile nMap reduceF).kvs := by
    rcases doReduce_result_cases sortSort fs jobName reduceTask outFile nMap reduceF with
      ⟨h1, _, h3⟩ | ⟨_, h2⟩
    · rw [h1, h3]
      exact List.Perm.refl _
    · rw [h2, runs_expand]
      exact hs.perm _
  refine ⟨hfirst, ?_⟩
  rw [← flatten_expand_values]
  exact hfirst.map KeyValue.Value

theorem doReduce_values_preserved_witness :
    SortContract insertionSort
    ∧ (((doReduce insertionSort fsLetters "job" 0 "out" 1 joinComma).calls.map
          expand).flatten).Perm
        (doReduce insertionSort fsLetters "job" 0 "out" 1 joinComma).kvs
    ∧ (((doReduce insertionSort fsLetters "job" 0 "out" 1 joinComma).calls.map
          Prod.snd).flatten).Perm
        ((doReduce insertionSort fsLetters "job" 0 "out" 1 joinComma).kvs.map
          KeyValue.Value) :=
  ⟨insertionSort_contract,
    doReduce_values_preserved insertionSort insertionSort_contract fsLetters "job" 0 "out" 1
      joinComma⟩

/-- C16: `reduceF` is never called with an empty list of values, there is one
Result Record per call, and the number of calls is at most the number of
decoded input records. -/
theorem doReduce_calls_nonempty (sortSort : KeyValues → KeyValues)
    (hs : SortContract sortSort)
    (fs : FS) (jobName : String) (reduceTask : Int) (outFile : String) (nMap : Int)
    (reduceF : String → List String → String) :
    (∀ c ∈ (doReduce sortSort fs jobName reduceTask outFile nMap reduceF).calls, c.2 ≠ [])
    ∧ (doReduce sortSort fs jobName reduceTask outFile nMap reduceF).result.length
        = (doReduce sortSort fs jobName reduceTask outFile nMap reduceF).calls.length
    ∧ (doReduce sortSort fs jobName reduceTask outFile nMap reduceF).calls.length
        ≤ (doReduce sortSort fs jobName reduceTask outFile nMap reduceF).kvs.length := by
  rcases doReduce_result_cases sortSort fs jobName reduceTask outFile nMap reduceF with
    ⟨h1, h2, h3⟩ | ⟨h1, h2⟩
  · rw [h1, h2, h3]
    simp
  · rw [h1, h2]
    refine ⟨runs_nonempty _, by simp, ?_⟩
    have hlen := (hs.perm
      (doReduce sortSort fs jobName reduceTask outFile nMap reduceF).kvs).length_eq
    have hle := runs_length_le
      (sortSort (doReduce sortSort fs jobName reduceTask outFile nMap reduceF).kvs)
    omega

theorem doReduce_calls_nonempty_witness :
    SortContract insertionSort
    ∧ (∀ c ∈ (doReduce insertionSort fsThree "job" 0 "out" 3 joinComma).calls, c.2 ≠ [])
    ∧ (doReduce insertionSort fsThree "job" 0 "out" 3 joinComma).result.length
        = (doReduce insertionSort fsThree "job" 0 "out" 3 joinComma).calls.length
    ∧ (doReduce insertionSort fsThree "job" 0 "out" 3 joinComma).calls.length
        ≤ (doReduce insertionSort fsThree "job" 0 "out" 3 joinComma).kvs.length :=
  ⟨insertionSort_contract,
    doReduce_calls_nonempty insertionSort insertionSort_contract fsThree "job" 0 "out" 3
      joinComma⟩

/-! ## The comparator as an ordering -/

/-- C17: for every collection, `Less` is a strict weak ordering of its indices:
it is irreflexive and transitive, and being incomparable (neither index `Less`
than the other) is reflexive, symmetric and transitive. -/
theorem Less_strict_weak_order (kv : KeyValues) :
    (∀ i : Fin kv.length, Less kv i i = false)
    ∧ (∀ i j k : Fin kv.length, Less kv i j = true → Less kv j k = true → Less kv i k = true)
    ∧ (∀ i : Fin kv.length, Less kv i i = false ∧ Less kv i i = false)
    ∧ (∀ i j : Fin kv.length, (Less kv i j = false ∧ Less kv j i = false) →
        (Less kv j i = false ∧ Less kv i j = false))
    ∧ (∀ i j k : Fin kv.length, (Less kv i j = false ∧ Less kv j i = false) →
        (Less kv j k = false ∧ Less kv k j = false) →
        (Less kv i k = false ∧ Less kv k i = false)) := by
  refine ⟨?_, ?_, ?_, ?_, ?_⟩
  · intro i
    unfold Less
    rw [lessKey_false_iff]
  · intro i j k hij hjk
    unfold Less at hij hjk ⊢
    rw [lessKey_iff] at hij hjk ⊢
    exact lt_trans hij hjk
  · intro i
    unfold Less
    rw [lessKey_false_iff]
    exact ⟨le_refl _, le_refl _⟩
  · intro i j h
    exact ⟨h.2, h.1⟩
  · intro i j k hij hjk
    unfold Less at hij hjk ⊢
    rw [lessKey_false_iff, lessKey_false_iff] at hij hjk ⊢
    exact ⟨le_trans hjk.1 hij.1, le_trans hij.2 hjk.2⟩

/-! ## Distinct tasks have distinct intermediate files -/

theorem split_at_last (x : Char) (l1 : List Char) :
    ∀ (l2 b1 b2 : List Char), x ∉ b1 → x ∉ b2 → l1 ++ x :: b1 = l2 ++ x :: b2 →
      l1 = l2 ∧ b1 = b2 := by
  induction l1 with
  | nil =>
    intro l2 b1 b2 h1 _ h
    cases l2 with
    | nil =>
      simp only [List.nil_append, List.cons.injEq, true_and] at h
      exact ⟨rfl, h⟩
    | cons y l2 =>
      simp only [List.nil_append, List.cons_append, List.cons.injEq] at h
      exact absurd (by rw [h.2]; simp) h1
  | cons y l1 ih =>
    intro l2 b1 b2 h1 h2 h
    cases l2 with
    | nil =>
      simp only [List.nil_append, List.cons_append, List.cons.injEq] at h
      exact absurd (by rw [← h.2]; simp) h2
    | cons z l2 =>
      simp only [List.cons_append, List.cons.injEq] at h
      obtain ⟨e1, e2⟩ := ih l2 b1 b2 h1 h2 h.2
      exact ⟨by rw [h.1, e1], e2⟩

theorem Itoa_nonneg_data (i : Int) (h : 0 ≤ i) :
    (Itoa i).data = Nat.toDigits 10 i.toNat := by
  cases i with
  | ofNat n => rfl
  | negSucc n => exact absurd h (by simp [Int.negSucc_lt_zero])

theorem Itoa_nonneg_no_minus (i : Int) (h : 0 ≤ i) : '-' ∉ (Itoa i).data := by
  rw [Itoa_nonneg_data i h]
  intro hm
  have hd := ((isDecimalNat_iff _ _).mp (toDigits_isDecimalNat i.toNat)).2.1 '-' hm
  exact absurd hd (by decide)

theorem Itoa_nonneg_inj (i j : Int) (hi : 0 ≤ i) (hj : 0 ≤ j)
    (h : (Itoa i).data = (Itoa j).data) : i = j := by
  rw [Itoa_nonneg_data i hi, Itoa_nonneg_data j hj] at h
  have h1 := ((isDecimalNat_iff _ _).mp (toDigits_isDecimalNat i.toNat)).2.2.1
  have h2 := ((isDecimalNat_iff _ _).mp (toDigits_isDecimalNat j.toNat)).2.2.1
  rw [h] at h1
  have : i.toNat = j.toNat := h1.symm.trans h2
  omega

theorem reduceName_data (jobName : String) (mapTask reduceTask : Int) :
    (reduceName jobName mapTask reduceTask).data
      = ("mrtmp.".data ++ jobName.data ++ '-' :: (Itoa mapTask).data)
        ++ '-' :: (Itoa reduceTask).data := by
  simp [reduceName, String.data_append]

/-- C18: `reduceName` is injective on indices that are not negative: two
triples of job name, map task and reduce task with the same intermediate file
name are the same triple. -/
theorem reduceName_injective (jobName jobName2 : String)
    (mapTask reduceTask mapTask2 reduceTask2 : Int)
    (hm : 0 ≤ mapTask) (hr : 0 ≤ reduceTask) (hm2 : 0 ≤ mapTask2) (hr2 : 0 ≤ reduceTask2)
    (h : reduceName jobName mapTask reduceTask = reduceName jobName2 mapTask2 reduceTask2) :
    jobName = jobName2 ∧ mapTask = mapTask2 ∧ reduceTask = reduceTask2 := by
  have hd := congrArg String.data h
  rw [reduceName_data, reduceName_data] at hd
  obtain ⟨h1, h2⟩ := split_at_last '-' _ _ _ _
    (Itoa_nonneg_no_minus reduceTask hr) (Itoa_nonneg_no_minus reduceTask2 hr2) hd
  obtain ⟨h3, h4⟩ := split_at_last '-' _ _ _ _
    (Itoa_nonneg_no_minus mapTask hm) (Itoa_nonneg_no_minus mapTask2 hm2) h1
  have h5 : jobName.data = jobName2.data := List.append_cancel_left h3
  exact ⟨String.ext h5, Itoa_nonneg_inj _ _ hm hm2 h4, Itoa_nonneg_inj _ _ hr hr2 h2⟩

theorem reduceName_injective_witness :
    (0 : Int) ≤ 1 ∧ (0 : Int) ≤ 2
    ∧ reduceName "job" 1 2 = reduceName "job" 1 2
    ∧ ("job" = "job" ∧ (1 : Int) = 1 ∧ (2 : Int) = 2) :=
  ⟨by decide, by decide, rfl,
    reduceName_injective "job" "job" 1 2 1 2 (by decide) (by decide) (by decide) (by decide)
      rfl⟩

end mapreduce
